import Mathlib

/-!
# astartectl, `cmd/housekeeping/housekeeping.go`

A shallow embedding of the `housekeeping` command's pre-run hook
(`housekeepingPersistentPreRunE`) and of `generateHousekeepingJWT`, together
with the Go library functions the hook calls on its data path
(`path.Clean`, `path.Join`, `net/url.Parse`, `(*URL).String`,
`(*jwt.Token).SignedString`).

Go strings are byte sequences: they are modelled as lists of byte values.
-/

namespace Housekeeping

/-! ## Go strings -/

/-- A Go `string`: a sequence of bytes, each byte given by its value. -/
abbrev Str := List Nat

/-- The Go string written as the literal `s` (ASCII literals only are used). -/
def bytes (s : String) : Str := s.toList.map Char.toNat

/-- The byte `'/'`. -/
abbrev slash : Nat := 47

/-- The byte `'.'`. -/
abbrev dot : Nat := 46

/-- Go `strings.Join(elems, sep)`. -/
def stringsJoin : List Str → Str → Str
  | [], _ => []
  | [e], _ => e
  | e :: e2 :: rest, sep => e ++ sep ++ stringsJoin (e2 :: rest) sep

/-! ## Go `path.Clean` and `path.Join`

The write buffer `out` of `path.Clean` (a `lazybuf` holding `out.w` bytes) is
kept as a list in reverse order, most recently written byte first: `out.w` is
its length, `out.append(c)` is `c :: out`, and after `out.w--` the byte
`out.index(out.w)` is the byte just removed. -/

/-- The `..` case of `path.Clean` when it can backtrack:
`out.w--; for out.w > dotdot && out.index(out.w) != '/' { out.w-- }`. -/
def backtrack (dotdot : Nat) : Str → Str
  | [] => []
  | c :: out => if out.length > dotdot ∧ c ≠ slash then backtrack dotdot out else out

/-- One iteration of the loop `for r < n { ... }` of `path.Clean`, on the
unread input `path[r:] = c :: rest`: the unread input, the buffer and `dotdot`
after it. -/
def cleanStep (rooted : Bool) (c : Nat) (rest out : Str) (dotdot : Nat) : Str × Str × Nat :=
  if c = slash then
    -- empty path element
    (rest, out, dotdot)
  else if c = dot ∧ (rest = [] ∨ rest.head? = some slash) then
    -- . element
    (rest, out, dotdot)
  else if c = dot ∧ rest.head? = some dot ∧
      (rest.tail = [] ∨ rest.tail.head? = some slash) then
    -- .. element: remove to last /
    if out.length > dotdot then
      -- can backtrack
      (rest.tail, backtrack dotdot out, dotdot)
    else if rooted = false then
      -- cannot backtrack, but not rooted, so append .. element
      let out1 := if out.length > 0 then slash :: out else out
      (rest.tail, dot :: dot :: out1, (dot :: dot :: out1).length)
    else
      (rest.tail, out, dotdot)
  else
    -- real path element: add slash if needed, copy element
    let out1 :=
      if (rooted = true ∧ out.length ≠ 1) ∨ (rooted = false ∧ out.length ≠ 0)
      then slash :: out else out
    ((c :: rest).dropWhile (fun b => b != slash),
      ((c :: rest).takeWhile (fun b => b != slash)).reverse ++ out1, dotdot)

/-- The loop `for r < n { ... }` of `path.Clean`. The second argument is the
unread part `path[r:]`; the first bounds the number of iterations (each one
reads at least one byte, so `n` iterations are never exceeded). -/
def cleanLoop (rooted : Bool) : Nat → Str → Str → Nat → Str
  | 0, _, out, _ => out
  | _ + 1, [], out, _ => out
  | fuel + 1, c :: rest, out, dotdot =>
    let s := cleanStep rooted c rest out dotdot
    cleanLoop rooted fuel s.1 s.2.1 s.2.2

/-- Go `path.Clean`. -/
def Clean (path : Str) : Str :=
  if path = [] then bytes "."
  else
    let rooted : Bool := path.head? = some slash
    let n := path.length
    let out :=
      if rooted then cleanLoop rooted n path.tail [slash] 1
      else cleanLoop rooted n path [] 0
    if out.length = 0 then bytes "." else out.reverse

/-- Go `path.Join(elem...)`: the elements from the first non-empty one on,
joined with `/` and cleaned; the empty string when all are empty. -/
def Join : List Str → Str
  | [] => []
  | e :: rest => if e ≠ [] then Clean (stringsJoin (e :: rest) (bytes "/")) else Join rest

/-! ## Go `net/url`: `Parse` and `(*URL).String`, as in Go 1.24.0

Later releases make `parseHost` stricter (a host in brackets has to be an
IPv6 address, a host holds no colon but the one before the port): they reject
more parent URLs. The properties of the hook are stated for whatever URL the
parse returns. -/

/-- Go `strings.HasPrefix(s, p)`. -/
def startsWith : Str → Str → Bool
  | _, [] => true
  | [], _ :: _ => false
  | c :: s, d :: p => c = d && startsWith s p

/-- Go `strings.HasSuffix(s, p)`. -/
def endsWith (s p : Str) : Bool := startsWith s.reverse p.reverse

/-- Go `strings.Index(s, sep)`, with `none` for `-1`. -/
def stringsIndex : Str → Str → Option Nat
  | [], sep => if sep = [] then some 0 else none
  | c :: s, sep =>
    if startsWith (c :: s) sep then some 0 else (stringsIndex s sep).map (fun i => i + 1)

/-- Go `strings.LastIndex(s, sep)`, with `none` for `-1`. -/
def stringsLastIndex : Str → Str → Option Nat
  | [], sep => if sep = [] then some 0 else none
  | c :: s, sep =>
    match stringsLastIndex s sep with
    | some i => some (i + 1)
    | none => if startsWith (c :: s) sep then some 0 else none

/-- Go `strings.Count(s, sep)` for a one-byte `sep`. -/
def stringsCountByte (s : Str) (c : Nat) : Nat := s.count c

/-- Go `strings.ToLower` on ASCII letters (the only bytes a scheme holds). -/
def toLowerASCII (s : Str) : Str :=
  s.map (fun c => if 'A'.toNat ≤ c ∧ c ≤ 'Z'.toNat then c + 32 else c)

/-- The `encoding` modes of `net/url`. -/
inductive encoding
  | encodePath
  | encodePathSegment
  | encodeHost
  | encodeZone
  | encodeUserPassword
  | encodeQueryComponent
  | encodeFragment
  deriving DecidableEq, Repr

open encoding

/-- The errors `net/url.Parse` reports (the `Err` of the `*url.Error`). -/
inductive UrlError
  | invalidControlCharacter
  | missingProtocolScheme
  | firstPathSegmentColon
  | escapeError (s : Str)
  | invalidHostError (s : Str)
  | missingBracket
  | invalidPort (colonPort : Str)
  | invalidUserinfo
  deriving DecidableEq, Repr

/-- Go `url.Userinfo`. -/
structure Userinfo where
  username : Str
  password : Str
  passwordSet : Bool
  deriving DecidableEq, Repr

/-- Go `url.URL`; `User = none` is the nil `*Userinfo`. -/
structure URL where
  Scheme : Str
  Opaque : Str
  User : Option Userinfo
  Host : Str
  Path : Str
  RawPath : Str
  OmitHost : Bool
  ForceQuery : Bool
  RawQuery : Str
  Fragment : Str
  RawFragment : Str
  deriving DecidableEq, Repr

/-- Go `new(URL)`: every field at its zero value. -/
def URL.zero : URL :=
  { Scheme := [], Opaque := [], User := none, Host := [], Path := [], RawPath := [],
    OmitHost := false, ForceQuery := false, RawQuery := [], Fragment := [],
    RawFragment := [] }

/-- Go `ishex`. -/
def ishex (c : Nat) : Bool :=
  ('0'.toNat ≤ c ∧ c ≤ '9'.toNat) ∨ ('a'.toNat ≤ c ∧ c ≤ 'f'.toNat) ∨
    ('A'.toNat ≤ c ∧ c ≤ 'F'.toNat)

/-- Go `unhex`. -/
def unhex (c : Nat) : Nat :=
  if '0'.toNat ≤ c ∧ c ≤ '9'.toNat then c - '0'.toNat
  else if 'a'.toNat ≤ c ∧ c ≤ 'f'.toNat then c - 'a'.toNat + 10
  else if 'A'.toNat ≤ c ∧ c ≤ 'F'.toNat then c - 'A'.toNat + 10
  else 0

/-- Go `shouldEscape(c, mode)`. The byte 39 is the single quote. -/
def shouldEscape (c : Nat) (mode : encoding) : Bool :=
  -- §2.3 Unreserved characters (alphanum)
  if ('A'.toNat ≤ c ∧ c ≤ 'Z'.toNat) ∨ ('a'.toNat ≤ c ∧ c ≤ 'z'.toNat) ∨
      ('0'.toNat ≤ c ∧ c ≤ '9'.toNat) then false
  else if (mode = encodeHost ∨ mode = encodeZone) ∧
      c ∈ ['!'.toNat, '$'.toNat, '&'.toNat, 39, '('.toNat, ')'.toNat, '*'.toNat, '+'.toNat,
        ','.toNat, ';'.toNat, '='.toNat, ':'.toNat, '['.toNat, ']'.toNat, '<'.toNat,
        '>'.toNat, '"'.toNat] then false
  else if c ∈ ['-'.toNat, '_'.toNat, '.'.toNat, '~'.toNat] then false
  else if c ∈ ['$'.toNat, '&'.toNat, '+'.toNat, ','.toNat, '/'.toNat, ':'.toNat, ';'.toNat,
      '='.toNat, '?'.toNat, '@'.toNat] ∧
      mode ∈ [encodePath, encodePathSegment, encodeUserPassword, encodeQueryComponent,
        encodeFragment] then
    match mode with
    | encodePath => c = '?'.toNat
    | encodePathSegment =>
      c = '/'.toNat ∨ c = ';'.toNat ∨ c = ','.toNat ∨ c = '?'.toNat
    | encodeUserPassword =>
      c = '@'.toNat ∨ c = '/'.toNat ∨ c = '?'.toNat ∨ c = ':'.toNat
    | encodeQueryComponent => true
    | _ => false
  else if mode = encodeFragment ∧
      c ∈ ['!'.toNat, '('.toNat, ')'.toNat, '*'.toNat] then false
  else true

/-- The first loop of Go `unescape`: counts the `%` escapes (`n`), checks that
they are well formed, and notes whether a `+` has to become a space. -/
def unescapeCheck (mode : encoding) : Str → Nat → Bool → Except UrlError (Nat × Bool)
  | [], n, hasPlus => .ok (n, hasPlus)
  | c :: rest, n, hasPlus =>
    if c = '%'.toNat then
      match rest with
      | h1 :: h2 :: rest2 =>
        if !ishex h1 || !ishex h2 then .error (.escapeError [c, h1, h2])
        else if mode = encodeHost ∧ unhex h1 < 8 ∧ [c, h1, h2] ≠ bytes "%25" then
          .error (.escapeError [c, h1, h2])
        else if mode = encodeZone ∧ [c, h1, h2] ≠ bytes "%25" ∧
            unhex h1 * 16 + unhex h2 ≠ ' '.toNat ∧
            shouldEscape (unhex h1 * 16 + unhex h2) encodeHost then
          .error (.escapeError [c, h1, h2])
        else unescapeCheck mode rest2 (n + 1) hasPlus
      | _ => .error (.escapeError (c :: rest))
    else if c = '+'.toNat then
      unescapeCheck mode rest n (decide (mode = encodeQueryComponent))
    else if (mode = encodeHost ∨ mode = encodeZone) ∧ c < 128 ∧ shouldEscape c encodeHost then
      .error (.invalidHostError [c])
    else unescapeCheck mode rest n hasPlus

/-- The second loop of Go `unescape`: rewrites the escapes (all well formed,
by the first loop). -/
def unescapeWrite (mode : encoding) : Str → Str
  | [] => []
  | c :: rest =>
    if c = '%'.toNat then
      match rest with
      | h1 :: h2 :: rest2 => (unhex h1 * 16 + unhex h2) :: unescapeWrite mode rest2
      | _ => []
    else if c = '+'.toNat then
      (if mode = encodeQueryComponent then ' '.toNat else '+'.toNat) :: unescapeWrite mode rest
    else c :: unescapeWrite mode rest

/-- Go `unescape(s, mode)`. -/
def unescape (s : Str) (mode : encoding) : Except UrlError Str :=
  match unescapeCheck mode s 0 false with
  | .error e => .error e
  | .ok (n, hasPlus) =>
    if n = 0 ∧ hasPlus = false then .ok s else .ok (unescapeWrite mode s)

/-- The hexadecimal digit `"0123456789ABCDEF"[i]`. -/
def upperhex (i : Nat) : Nat := (bytes "0123456789ABCDEF").getD i 0

/-- Go `escape(s, mode)`; `c>>4` and `c&15` are taken on the byte `c`. -/
def escape (s : Str) (mode : encoding) : Str :=
  if s.all (fun c => !shouldEscape c mode) then s
  else
    s.flatMap (fun c =>
      if c = ' '.toNat ∧ mode = encodeQueryComponent then ['+'.toNat]
      else if shouldEscape c mode then ['%'.toNat, upperhex (c / 16 % 16), upperhex (c % 16)]
      else [c])

/-- Go `stringContainsCTLByte`. -/
def stringContainsCTLByte (s : Str) : Bool :=
  s.any (fun b => b < ' '.toNat || b = 127)

/-- The loop of Go `getscheme`; `i` is the index of the byte `c` read. -/
def getschemeLoop (rawurl : Str) : Nat → Str → Except UrlError (Str × Str)
  | _, [] => .ok ([], rawurl)
  | i, c :: rest =>
    if ('a'.toNat ≤ c ∧ c ≤ 'z'.toNat) ∨ ('A'.toNat ≤ c ∧ c ≤ 'Z'.toNat) then
      getschemeLoop rawurl (i + 1) rest
    else if ('0'.toNat ≤ c ∧ c ≤ '9'.toNat) ∨ c = '+'.toNat ∨ c = '-'.toNat ∨ c = '.'.toNat then
      if i = 0 then .ok ([], rawurl) else getschemeLoop rawurl (i + 1) rest
    else if c = ':'.toNat then
      if i = 0 then .error .missingProtocolScheme else .ok (rawurl.take i, rest)
    else
      -- an invalid character: there is no valid scheme
      .ok ([], rawurl)

/-- Go `getscheme(rawurl)`: the scheme and the rest after the colon. -/
def getscheme (rawurl : Str) : Except UrlError (Str × Str) :=
  getschemeLoop rawurl 0 rawurl

/-- Go `split(s, sep, cutc)`: cut `s` at the first `sep`. -/
def split (s sep : Str) (cutc : Bool) : Str × Str :=
  match stringsIndex s sep with
  | none => (s, [])
  | some i => if cutc then (s.take i, s.drop (i + sep.length)) else (s.take i, s.drop i)

/-- Go `validOptionalPort`. -/
def validOptionalPort (port : Str) : Bool :=
  match port with
  | [] => true
  | c :: digits =>
    if c ≠ ':'.toNat then false
    else digits.all (fun b => !(b < '0'.toNat || b > '9'.toNat))

/-- Go `validUserinfo`. The byte 39 is the single quote; a byte of 128 or
more decodes to a rune that is not allowed. -/
def validUserinfo (s : Str) : Bool :=
  s.all (fun r =>
    ('A'.toNat ≤ r ∧ r ≤ 'Z'.toNat) ∨ ('a'.toNat ≤ r ∧ r ≤ 'z'.toNat) ∨
    ('0'.toNat ≤ r ∧ r ≤ '9'.toNat) ∨
    r ∈ ['-'.toNat, '.'.toNat, '_'.toNat, ':'.toNat, '~'.toNat, '!'.toNat, '$'.toNat,
      '&'.toNat, 39, '('.toNat, ')'.toNat, '*'.toNat, '+'.toNat, ','.toNat, ';'.toNat,
      '='.toNat, '%'.toNat, '@'.toNat])

/-- Go `parseHost(host)`: a host, with an optional port, without user
information. -/
def parseHost (host : Str) : Except UrlError Str :=
  if startsWith host (bytes "[") then
    -- an IP-literal, as in "[fe80::1]", "[fe80::1%25en0]", "[fe80::1]:80"
    match stringsLastIndex host (bytes "]") with
    | none => .error .missingBracket
    | some i =>
      let colonPort := host.drop (i + 1)
      if !validOptionalPort colonPort then .error (.invalidPort colonPort)
      else
        match stringsIndex (host.take i) (bytes "%25") with
        | some zone =>
          match unescape (host.take zone) encodeHost with
          | .error e => .error e
          | .ok host1 =>
            match unescape ((host.take i).drop zone) encodeZone with
            | .error e => .error e
            | .ok host2 =>
              match unescape (host.drop i) encodeHost with
              | .error e => .error e
              | .ok host3 => .ok (host1 ++ host2 ++ host3)
        | none => unescape host encodeHost
  else
    match stringsLastIndex host (bytes ":") with
    | some i =>
      let colonPort := host.drop i
      if !validOptionalPort colonPort then .error (.invalidPort colonPort)
      else unescape host encodeHost
    | none => unescape host encodeHost

/-- Go `parseAuthority(authority)`: the user information and the host. -/
def parseAuthority (authority : Str) : Except UrlError (Option Userinfo × Str) :=
  let i := stringsLastIndex authority (bytes "@")
  let hostResult :=
    match i with
    | none => parseHost authority
    | some i => parseHost (authority.drop (i + 1))
  match hostResult with
  | .error e => .error e
  | .ok host =>
    match i with
    | none => .ok (none, host)
    | some i =>
      let userinfo := authority.take i
      if !validUserinfo userinfo then .error .invalidUserinfo
      else if (stringsIndex userinfo (bytes ":")).isNone then
        match unescape userinfo encodeUserPassword with
        | .error e => .error e
        | .ok username =>
          .ok (some { username := username, password := [], passwordSet := false }, host)
      else
        let (username, password) := split userinfo (bytes ":") true
        match unescape username encodeUserPassword with
        | .error e => .error e
        | .ok username =>
          match unescape password encodeUserPassword with
          | .error e => .error e
          | .ok password =>
            .ok (some { username := username, password := password, passwordSet := true }, host)

/-- Go `(*URL).setPath(p)`: sets `Path` and, when the default encoding of
`Path` differs from `p`, `RawPath`. -/
def URL.setPath (u : URL) (p : Str) : Except UrlError URL :=
  match unescape p encodePath with
  | .error e => .error e
  | .ok path =>
    if p = escape path encodePath then .ok { u with Path := path, RawPath := [] }
    else .ok { u with Path := path, RawPath := p }

/-- The first path segment of `s` holds a colon: the test
`segment, _, _ := strings.Cut(s, "/"); strings.Contains(segment, ":")` of Go
`parse` and of `(*URL).String`. -/
def colonBeforeSlash (s : Str) : Bool :=
  match stringsIndex s (bytes ":"), stringsIndex s (bytes "/") with
  | some colon, some slash => decide (colon < slash)
  | some _, none => true
  | none, _ => false

/-- Go `(*URL).setFragment(f)`: sets `Fragment` and, when the default encoding
of `Fragment` differs from `f`, `RawFragment`. -/
def URL.setFragment (u : URL) (f : Str) : Except UrlError URL :=
  match unescape f encodeFragment with
  | .error e => .error e
  | .ok frag =>
    if f = escape frag encodeFragment then .ok { u with Fragment := frag, RawFragment := [] }
    else .ok { u with Fragment := frag, RawFragment := f }

/-- Go `parse(rawurl, viaRequest)` with `viaRequest = false`, as `Parse` calls
it on the URL without its fragment. -/
def parse (rawurl : Str) : Except UrlError URL :=
  if stringContainsCTLByte rawurl then .error .invalidControlCharacter
  else if rawurl = bytes "*" then .ok { URL.zero with Path := bytes "*" }
  else
    match getscheme rawurl with
    | .error e => .error e
    | .ok (scheme, rest0) =>
      let url : URL := { URL.zero with Scheme := toLowerASCII scheme }
      let (rest, url) : Str × URL :=
        if endsWith rest0 (bytes "?") ∧ stringsCountByte rest0 '?'.toNat = 1 then
          (rest0.take (rest0.length - 1), { url with ForceQuery := true })
        else
          let (rest, query) := split rest0 (bytes "?") true
          (rest, { url with RawQuery := query })
      if !startsWith rest (bytes "/") ∧ url.Scheme ≠ [] then
        -- rootless paths are opaque
        .ok { url with Opaque := rest }
      else if !startsWith rest (bytes "/") ∧ colonBeforeSlash rest then
        -- first path segment has a colon: not allowed in a relative URL
        .error .firstPathSegmentColon
      else if (url.Scheme ≠ [] ∨ !startsWith rest (bytes "///")) ∧
          startsWith rest (bytes "//") then
        let (authority, rest) := split (rest.drop 2) (bytes "/") false
        match parseAuthority authority with
        | .error e => .error e
        | .ok (user, host) => URL.setPath { url with User := user, Host := host } rest
      else if url.Scheme ≠ [] ∧ startsWith rest (bytes "/") then
        -- OmitHost is set to true when rawURL has an empty host (authority)
        URL.setPath { url with OmitHost := true } rest
      else URL.setPath url rest

/-- Go `url.Parse(rawurl)`; an error stands for the result `nil, err`. -/
def Parse (rawurl : Str) : Except UrlError URL :=
  -- cut off the fragment
  let (u, frag) := split rawurl (bytes "#") true
  match parse u with
  | .error e => .error e
  | .ok url =>
    if frag = [] then .ok url else URL.setFragment url frag

/-- Go `validEncoded(s, mode)`. The byte 39 is the single quote. -/
def validEncoded (s : Str) (mode : encoding) : Bool :=
  s.all (fun c =>
    if c ∈ ['!'.toNat, '$'.toNat, '&'.toNat, 39, '('.toNat, ')'.toNat, '*'.toNat, '+'.toNat,
        ','.toNat, ';'.toNat, '='.toNat, ':'.toNat, '@'.toNat] then true
    else if c = '['.toNat ∨ c = ']'.toNat then true
    else if c = '%'.toNat then true
    else !shouldEscape c mode)

/-- Go `(*URL).EscapedPath()`: `RawPath` when it is a valid encoding of
`Path`, the default encoding of `Path` otherwise. -/
def URL.EscapedPath (u : URL) : Str :=
  let rawPathFits : Bool :=
    u.RawPath ≠ [] && validEncoded u.RawPath encodePath &&
      (match unescape u.RawPath encodePath with
        | .ok p => decide (p = u.Path)
        | .error _ => false)
  if rawPathFits then u.RawPath
  else if u.Path = bytes "*" then bytes "*"
  else escape u.Path encodePath

/-- Go `(*URL).EscapedFragment()`: `RawFragment` when it is a valid encoding
of `Fragment`, the default encoding of `Fragment` otherwise. -/
def URL.EscapedFragment (u : URL) : Str :=
  let rawFragmentFits : Bool :=
    u.RawFragment ≠ [] && validEncoded u.RawFragment encodeFragment &&
      (match unescape u.RawFragment encodeFragment with
        | .ok f => decide (f = u.Fragment)
        | .error _ => false)
  if rawFragmentFits then u.RawFragment else escape u.Fragment encodeFragment

/-- Go `(*Userinfo).String()` on a non-nil receiver. -/
def Userinfo.String (u : Userinfo) : Str :=
  let s := escape u.username encodeUserPassword
  if u.passwordSet then s ++ bytes ":" ++ escape u.password encodeUserPassword else s

/-- Go `(*URL).String()`. The four parts are written to the buffer in this
order: the scheme, the opaque part or the authority and path, the query, the
fragment. -/
def URL.String (u : URL) : Str :=
  let buf : Str := if u.Scheme ≠ [] then u.Scheme ++ bytes ":" else []
  let buf : Str :=
    if u.Opaque ≠ [] then buf ++ u.Opaque
    else
      let buf : Str :=
        if u.Scheme ≠ [] ∨ u.Host ≠ [] ∨ u.User.isSome then
          if u.OmitHost ∧ u.Host = [] ∧ u.User.isNone then
            -- omit empty host
            buf
          else
            let buf :=
              if u.Host ≠ [] ∨ u.Path ≠ [] ∨ u.User.isSome then buf ++ bytes "//" else buf
            let buf :=
              match u.User with
              | some ui => buf ++ ui.String ++ bytes "@"
              | none => buf
            if u.Host ≠ [] then buf ++ escape u.Host encodeHost else buf
        else buf
      let path := u.EscapedPath
      let buf : Str :=
        if path ≠ [] ∧ path.head? ≠ some slash ∧ u.Host ≠ [] then buf ++ bytes "/" else buf
      let buf : Str :=
        -- a first segment with a colon would be taken for a scheme
        if buf.length = 0 ∧ colonBeforeSlash path then buf ++ bytes "./" else buf
      buf ++ path
  let buf : Str := if u.ForceQuery ∨ u.RawQuery ≠ [] then buf ++ bytes "?" ++ u.RawQuery else buf
  if u.Fragment ≠ [] then buf ++ bytes "#" ++ u.EscapedFragment else buf

/-! ## The command: `housekeeping.go`

The calls whose results come from outside the program (the configuration
store, the file system, the clock, the key parser and the RSA signature) are
the fields of an environment; every theorem holds for all environments. -/

/-- A value of a `jwt.MapClaims` entry, as far as this program builds them. -/
inductive ClaimValue
  | strings (xs : List Str)
  | int64 (n : Int)
  deriving DecidableEq, Repr

/-- Go `jwt.MapClaims`: the entries of the map, as key and value pairs. -/
abbrev MapClaims := List (String × ClaimValue)

/-- Go `jwt.Token`, as built by `jwt.NewWithClaims(method, claims)`; the
method is given by its `alg` name. -/
structure Token where
  Method : String
  Claims : MapClaims
  deriving DecidableEq, Repr

/-- Go `jwt.NewWithClaims`. -/
def NewWithClaims (method : String) (claims : MapClaims) : Token :=
  { Method := method, Claims := claims }

/-- Go `jwt.SigningMethodRS256`, by its `alg` name. -/
def SigningMethodRS256 : String := "RS256"

/-- A Go `error` value: one made by `errors.New` in `housekeeping.go`, or one
returned by a library call. -/
inductive GoError (E : Type)
  | errorsNew (text : String)
  | external (e : E)
  deriving DecidableEq, Repr

/-- What the program reads from outside. `Key` is `*rsa.PrivateKey` and `E`
the error values of the libraries. -/
structure Env (Key E : Type) where
  /-- The call `viper.GetString(key)`. -/
  GetString : String → Str
  /-- The call `ioutil.ReadFile(filename)`. -/
  ReadFile : Str → Except E Str
  /-- The call `jwt.ParseRSAPrivateKeyFromPEM(keyPEM)`. -/
  ParseRSAPrivateKeyFromPEM : Str → Except E Key
  /-- The value of `time.Now().UTC().Unix()`, an `int64`. -/
  Now : Int
  /-- The call `(*jwt.Token).SigningString()`: the encoded header and claims. -/
  SigningString : Token → Except E Str
  /-- The call `token.Method.Sign(signingString, key)`: the encoded signature. -/
  Sign : String → Str → Key → Except E Str

/-- The library calls with an effect, in the order they are made. -/
inductive Event (Key : Type)
  | readFile (filename : Str)
  | parseRSAPrivateKeyFromPEM (keyPEM : Str)
  | timeNow
  | signedString (token : Token) (key : Key)
  deriving DecidableEq, Repr

/-- Go `int64` arithmetic: the value of an integer result in 64 bits, two's
complement. -/
def wrapInt64 (x : Int) : Int := (x + 2 ^ 63) % 2 ^ 64 - 2 ^ 63

variable {Key E : Type}

/-- Go `(*jwt.Token).SignedString(key)`: the signing string, a dot and the
signature. -/
def SignedString (env : Env Key E) (t : Token) (key : Key) : Except E Str :=
  match env.SigningString t with
  | .error err => .error err
  | .ok sstr =>
    match env.Sign t.Method sstr key with
    | .error err => .error err
    | .ok sig => .ok (stringsJoin [sstr, sig] (bytes "."))

/-- The function `generateHousekeepingJWT(privateKey)`: the pair it returns,
and the library calls it made. -/
def generateHousekeepingJWT (env : Env Key E) (privateKey : Str) :
    (Str × Option (GoError E)) × List (Event Key) :=
  match env.ReadFile privateKey with
  | .error err => (([], some (.external err)), [.readFile privateKey])
  | .ok keyPEM =>
    match env.ParseRSAPrivateKeyFromPEM keyPEM with
    | .error err =>
      (([], some (.external err)), [.readFile privateKey, .parseRSAPrivateKeyFromPEM keyPEM])
    | .ok key =>
      let now := env.Now
      -- 5 minutes expiry
      let expiry := wrapInt64 (now + 300)
      let token := NewWithClaims SigningMethodRS256
        [("a_ha", .strings [bytes "^.*$::^.*$"]), ("iat", .int64 now), ("exp", .int64 expiry)]
      let trace : List (Event Key) :=
        [.readFile privateKey, .parseRSAPrivateKeyFromPEM keyPEM, .timeNow,
          .signedString token key]
      match SignedString env token key with
      | .error err => (([], some (.external err)), trace)
      | .ok tokenString => ((tokenString, none), trace)

/-- The package variables `housekeepingJwt` and `housekeepingUrl`. -/
structure Globals where
  housekeepingJwt : Str
  housekeepingUrl : Str
  deriving DecidableEq, Repr

/-- How a call ends: it returns its `error` result (`none` is `nil`), or the
run stops in a run-time panic (a nil pointer dereference). -/
inductive Outcome (E : Type)
  | returned (err : Option (GoError E))
  | panicked
  deriving DecidableEq, Repr

/-- A run of the hook: how it ended, the package variables at that point and
the library calls made. -/
structure Run (Key E : Type) where
  outcome : Outcome E
  globals : Globals
  trace : List (Event Key)

/-- The hook `housekeepingPersistentPreRunE`, started with the package
variables `g`. When `url.Parse` fails it returns a nil `*URL` (the error is
discarded), and the assignment to `url.Path` dereferences it. -/
def housekeepingPersistentPreRunE (env : Env Key E) (g : Globals) : Run Key E :=
  let housekeepingUrlOverride := env.GetString "housekeeping.url"
  let astarteUrl := env.GetString "url"
  let resolved : Except (Outcome E) Globals :=
    if housekeepingUrlOverride ≠ [] then
      -- Use explicit housekeeping-url
      .ok { g with housekeepingUrl := housekeepingUrlOverride }
    else if astarteUrl ≠ [] then
      match Parse astarteUrl with
      | .error _ => .error .panicked
      | .ok url =>
        let url := { url with Path := Join [url.Path, bytes "housekeeping"] }
        .ok { g with housekeepingUrl := url.String }
    else
      .error (.returned (some (.errorsNew
        "Either astarte-url or housekeeping-url have to be specified")))
  match resolved with
  | .error outcome => { outcome := outcome, globals := g, trace := [] }
  | .ok g =>
    let housekeepingKey := env.GetString "housekeeping.key"
    if housekeepingKey = [] then
      { outcome := .returned (some (.errorsNew "housekeeping-key is required")),
        globals := g, trace := [] }
    else
      let result := generateHousekeepingJWT env housekeepingKey
      { outcome := .returned result.1.2,
        globals := { g with housekeepingJwt := result.1.1 },
        trace := result.2 }

/-- A configuration with the three settings the hook reads. -/
def config (housekeepingUrl url housekeepingKey : String) : String → Str := fun key =>
  if key = "housekeeping.url" then bytes housekeepingUrl
  else if key = "url" then bytes url
  else if key = "housekeeping.key" then bytes housekeepingKey
  else []

/-- An environment for concrete runs: a configuration, a file system with
one key file, a key parser that accepts the bytes `pem`, and a signer that
returns fixed encodings. -/
def sampleEnv (settings : String → Str) (now : Int) : Env Unit String :=
  { GetString := settings
    ReadFile := fun name =>
      if name = bytes "/etc/astarte/housekeeping.pem" then .ok (bytes "pem")
      else if name = bytes "/tmp/notes.txt" then .ok (bytes "not a key")
      else .error "no such file or directory"
    ParseRSAPrivateKeyFromPEM := fun pem =>
      if pem = bytes "pem" then .ok () else .error "key must be PEM encoded"
    Now := now
    SigningString := fun _ => .ok (bytes "eyJhbGciOiJSUzI1NiJ9.e30")
    Sign := fun _ _ _ => .ok (bytes "c2ln") }

/-! ## Vocabulary of the properties -/

/-- An initial value of the package variables, as left by an earlier run. -/
def earlier : Globals :=
  { housekeepingJwt := bytes "earlier.jwt.value", housekeepingUrl := bytes "http://earlier/housekeeping" }

/-- The claim set `generateHousekeepingJWT` builds at the time `T`. -/
def claimsAt (T : Int) : MapClaims :=
  [("a_ha", .strings [bytes "^.*$::^.*$"]), ("iat", .int64 T),
    ("exp", .int64 (wrapInt64 (T + 300)))]

/-- The URL the hook renders: the parsed parent URL with `housekeeping`
joined to its path. -/
def joined (u : URL) : URL := { u with Path := Join [u.Path, bytes "housekeeping"] }

/-- The endpoint the hook resolves from the configuration: the override URL
when it is set, else the rendering of the parsed parent URL with
`housekeeping` joined to its path. -/
def ResolvesTo (env : Env Key E) (endpoint : Str) : Prop :=
  (env.GetString "housekeeping.url" ≠ [] ∧ endpoint = env.GetString "housekeeping.url") ∨
  (env.GetString "housekeeping.url" = [] ∧ env.GetString "url" ≠ [] ∧
    ∃ u, Parse (env.GetString "url") = .ok u ∧ endpoint = (joined u).String)

/-- No two adjacent bytes of the list are both slashes. -/
def NoDoubleSlash (l : Str) : Prop := l.Chain' (fun a b => ¬(a = slash ∧ b = slash))

/-- What holds of the write buffer of `path.Clean` (most recent byte first)
and of `dotdot` at every point of the loop: no two adjacent slashes;
`dotdot` lies between the length of the root and the length of the buffer;
the part of the buffer below `dotdot` does not end in a slash, unless it is
the root; a rooted buffer starts with the root slash and has `dotdot = 1`. -/
structure BufferInv (rooted : Bool) (out : Str) (dotdot : Nat) : Prop where
  chain : NoDoubleSlash out
  low : (if rooted then 1 else 0) ≤ dotdot
  high : dotdot ≤ out.length
  kept : (if rooted then 1 else 0) < dotdot →
    (out.drop (out.length - dotdot)).head? ≠ some slash
  root : rooted = true → out.getLast? = some slash ∧ dotdot = 1

/-- The buffer does not end in a slash, unless it is the root. -/
def NoTrailingSlash (rooted : Bool) (out : Str) : Prop :=
  (if rooted then 1 else 0) < out.length → out.head? ≠ some slash

/-- The part of `(*URL).String()` between the scheme and the query: the
opaque part when there is one, the encoded path otherwise. -/
def URL.core (u : URL) : Str := if u.Opaque ≠ [] then u.Opaque else u.EscapedPath

/-- What `(*URL).String()` has written when it comes to the path of a URL
without an opaque part: the scheme, the authority, and the slash or the "./"
it puts before the path. -/
def URL.beforePath (u : URL) : Str :=
  let buf : Str := if u.Scheme ≠ [] then u.Scheme ++ bytes ":" else []
  let buf : Str :=
    if u.Scheme ≠ [] ∨ u.Host ≠ [] ∨ u.User.isSome then
      if u.OmitHost ∧ u.Host = [] ∧ u.User.isNone then
        buf
      else
        let buf :=
          if u.Host ≠ [] ∨ u.Path ≠ [] ∨ u.User.isSome then buf ++ bytes "//" else buf
        let buf :=
          match u.User with
          | some ui => buf ++ ui.String ++ bytes "@"
          | none => buf
        if u.Host ≠ [] then buf ++ escape u.Host encodeHost else buf
    else buf
  let path := u.EscapedPath
  let buf : Str :=
    if path ≠ [] ∧ path.head? ≠ some slash ∧ u.Host ≠ [] then buf ++ bytes "/" else buf
  if buf.length = 0 ∧ colonBeforeSlash path then buf ++ bytes "./" else buf

/-- The user information `(*URL).String()` writes before the host. -/
def URL.userinfoPart (u : URL) : Str :=
  match u.User with
  | some ui => ui.String ++ bytes "@"
  | none => []

/-- The query `(*URL).String()` writes after the path. -/
def URL.queryPart (u : URL) : Str :=
  if u.ForceQuery ∨ u.RawQuery ≠ [] then bytes "?" ++ u.RawQuery else []

/-- The fragment `(*URL).String()` writes last. -/
def URL.fragmentPart (u : URL) : Str :=
  if u.Fragment ≠ [] then bytes "#" ++ u.EscapedFragment else []

/-- The endpoint the hook derives from the parent URL `a`, when `a` parses. -/
def joinedEndpoint (a : Str) : Option Str :=
  match Parse a with
  | .ok u => some (joined u).String
  | .error _ => none

/-- The path of an endpoint: the `Path` of the URL it parses to. -/
def pathOf (endpoint : Str) : Option Str :=
  match Parse endpoint with
  | .ok u => some u.Path
  | .error _ => none

/-- The bytes `escape` writes for the byte `c` of a path. -/
def escapeByte (c : Nat) : Str :=
  if shouldEscape c encodePath then ['%'.toNat, upperhex (c / 16 % 16), upperhex (c % 16)]
  else [c]

/-! ## Lemmas on `path.Clean`, `(*URL).String` and the token -/

theorem BufferInv.tail {rooted : Bool} {c : Nat} {out : Str} {dotdot : Nat}
    (h : BufferInv rooted (c :: out) dotdot) (hlen : dotdot ≤ out.length) :
    BufferInv rooted out dotdot := by
  refine ⟨h.chain.tail, h.low, hlen, ?_, ?_⟩
  · intro hk
    have := h.kept hk
    have e : (c :: out).length - dotdot = (out.length - dotdot) + 1 := by
      simp only [List.length_cons]; omega
    rw [e, List.drop_succ_cons] at this
    exact this
  · intro hr
    obtain ⟨h1, h2⟩ := h.root hr
    refine ⟨?_, h2⟩
    cases out with
    | nil => simp [h2] at hlen
    | cons d t => simpa [List.getLast?_cons_cons] using h1

theorem backtrack_inv {rooted : Bool} {dotdot : Nat} :
    ∀ {out : Str}, BufferInv rooted out dotdot → dotdot < out.length →
      BufferInv rooted (backtrack dotdot out) dotdot ∧
        NoTrailingSlash rooted (backtrack dotdot out)
  | [], _, hlt => by simp at hlt
  | c :: out, h, hlt => by
    have hle : dotdot ≤ out.length := by simp only [List.length_cons] at hlt; omega
    have ht := h.tail hle
    unfold backtrack
    by_cases hc : out.length > dotdot ∧ c ≠ slash
    · rw [if_pos hc]
      exact backtrack_inv ht hc.1
    · rw [if_neg hc]
      refine ⟨ht, ?_⟩
      intro hk
      by_cases hlen : out.length > dotdot
      · have hcs : c = slash := by
          by_contra hne
          exact hc ⟨hlen, hne⟩
        cases out with
        | nil => simp
        | cons d t =>
          have := h.chain.rel_head
          simp only [List.head?_cons, ne_eq, Option.some.injEq]
          intro hd
          exact this ⟨hcs, hd⟩
      · have e : out.length = dotdot := by omega
        have hk2 := ht.kept (by omega)
        rw [e, Nat.sub_self, List.drop_zero] at hk2
        exact hk2

theorem noDoubleSlash_prepend {l m : Str} (hl : ∀ x ∈ l, x ≠ slash) (hm : NoDoubleSlash m) :
    NoDoubleSlash (l ++ m) := by
  induction l with
  | nil => simpa using hm
  | cons x l ih =>
    have hx : x ≠ slash := hl x (List.mem_cons_self x l)
    have ih2 := ih (fun y hy => hl y (List.mem_cons_of_mem x hy))
    show List.Chain' _ (x :: (l ++ m))
    refine List.Chain'.cons' ih2 ?_
    intro y _ hxy
    exact hx hxy.1

theorem BufferInv.prepend {rooted : Bool} {out : Str} {dotdot : Nat} (pre : Str)
    (h : BufferInv rooted out dotdot) (hch : NoDoubleSlash (pre ++ out)) :
    BufferInv rooted (pre ++ out) dotdot := by
  have hhigh := h.high
  refine ⟨hch, h.low, ?_, ?_, ?_⟩
  · simp only [List.length_append]; omega
  · intro hk
    have e : (pre ++ out).length - dotdot = pre.length + (out.length - dotdot) := by
      simp only [List.length_append]; omega
    rw [e, List.drop_append]
    exact h.kept hk
  · intro hr
    obtain ⟨h1, h2⟩ := h.root hr
    refine ⟨?_, h2⟩
    have hne : out ≠ [] := by
      intro he
      simp [he] at h1
    rw [List.getLast?_append_of_ne_nil _ hne]
    exact h1

theorem takeWhile_ne_slash (l : Str) :
    ∀ x ∈ l.takeWhile (fun b => b != slash), x ≠ slash := by
  intro x hx
  have := List.mem_takeWhile_imp hx
  simpa using this

theorem cleanStep_inv {rooted : Bool} (c : Nat) (rest : Str) {out : Str} {dotdot : Nat}
    (h : BufferInv rooted out dotdot) (ht : NoTrailingSlash rooted out) :
    BufferInv rooted (cleanStep rooted c rest out dotdot).2.1
        (cleanStep rooted c rest out dotdot).2.2 ∧
      NoTrailingSlash rooted (cleanStep rooted c rest out dotdot).2.1 := by
  unfold cleanStep
  split
  · exact ⟨h, ht⟩
  split
  · exact ⟨h, ht⟩
  split
  · split
    · rename_i hlt
      exact backtrack_inv h hlt
    · rename_i hnlt
      split
      · rename_i hr
        subst hr
        have hch : NoDoubleSlash (if out.length > 0 then slash :: out else out) := by
          split
          · rename_i hpos
            refine List.Chain'.cons' h.chain ?_
            intro y hy hxy
            have := ht (by simpa using hpos)
            exact this (by rw [hxy.2] at hy; simpa using hy)
          · exact h.chain
        have hch2 : NoDoubleSlash (dot :: dot :: (if out.length > 0 then slash :: out else out)) :=
          noDoubleSlash_prepend (l := [dot, dot]) (by decide) hch
        refine ⟨⟨hch2, by simp, le_refl _, ?_, by simp⟩, ?_⟩
        · intro _
          simp
        · intro _
          simp
      · exact ⟨h, ht⟩
  · rename_i hc _ _
    have hcs : (c != slash) = true := by simpa using hc
    have hE : ∀ x ∈ ((c :: rest).takeWhile (fun b => b != slash)).reverse, x ≠ slash := by
      intro x hx
      exact takeWhile_ne_slash _ x (List.mem_reverse.mp hx)
    have hne : ((c :: rest).takeWhile (fun b => b != slash)).reverse ≠ [] := by
      simp [List.takeWhile_cons, hcs]
    have hlow := h.low
    have hhigh := h.high
    have key : ∀ pre : Str, NoDoubleSlash (pre ++ out) →
        BufferInv rooted
          (((c :: rest).takeWhile (fun b => b != slash)).reverse ++ (pre ++ out)) dotdot ∧
        NoTrailingSlash rooted
          (((c :: rest).takeWhile (fun b => b != slash)).reverse ++ (pre ++ out)) := by
      intro pre hpre
      constructor
      · rw [← List.append_assoc]
        refine h.prepend _ ?_
        rw [List.append_assoc]
        exact noDoubleSlash_prepend hE hpre
      · intro _
        cases hrev : ((c :: rest).takeWhile (fun b => b != slash)).reverse with
        | nil => exact absurd hrev hne
        | cons x t =>
          have hx := hE x (by rw [hrev]; exact List.mem_cons_self x t)
          simpa using hx
    split
    · rename_i hcond
      have hpre : NoDoubleSlash ([slash] ++ out) := by
        refine List.Chain'.cons' h.chain ?_
        intro y hy hxy
        have hlen : (if rooted then 1 else 0) < out.length := by
          rcases hcond with ⟨hr, hl⟩ | ⟨hr, hl⟩
          · simp only [hr, if_true] at hlow ⊢; omega
          · simp only [hr] at hlow ⊢; simp; omega
        exact ht hlen (by rw [hxy.2] at hy; simpa using hy)
      exact key [slash] hpre
    · exact key [] (by simpa using h.chain)

theorem cleanLoop_inv {rooted : Bool} :
    ∀ (fuel : Nat) (p : Str) {out : Str} {dotdot : Nat}, BufferInv rooted out dotdot →
      NoTrailingSlash rooted out → NoDoubleSlash (cleanLoop rooted fuel p out dotdot)
  | 0, _, _, _, h, _ => by simpa [cleanLoop] using h.chain
  | _ + 1, [], _, _, h, _ => by simpa [cleanLoop] using h.chain
  | fuel + 1, c :: rest, _, _, h, ht => by
    simp only [cleanLoop]
    exact cleanLoop_inv fuel _ (cleanStep_inv c rest h ht).1 (cleanStep_inv c rest h ht).2

theorem noDoubleSlash_reverse {l : Str} (h : NoDoubleSlash l) : NoDoubleSlash l.reverse := by
  unfold NoDoubleSlash at h ⊢
  rw [List.chain'_reverse]
  refine h.imp ?_
  intro a b hab hba
  exact hab ⟨hba.2, hba.1⟩

theorem noDoubleSlash_spec {l : Str} (h : NoDoubleSlash l) : ¬ bytes "//" <:+: l := by
  intro hin
  have h2 : NoDoubleSlash [slash, slash] := List.Chain'.infix h hin
  exact (List.chain'_pair.mp h2) ⟨rfl, rfl⟩

theorem Clean_noDoubleSlash (path : Str) : NoDoubleSlash (Clean path) := by
  unfold Clean
  split
  · exact List.chain'_singleton _
  · have hroot : BufferInv true [slash] 1 :=
      ⟨List.chain'_singleton _, by simp, by simp, by simp, by simp⟩
    have hrootT : NoTrailingSlash true [slash] := by intro h; simp at h
    have hrel : BufferInv false [] 0 := ⟨List.chain'_nil, by simp, by simp, by simp, by simp⟩
    have hrelT : NoTrailingSlash false [] := by intro h; simp at h
    have hfin : ∀ out : Str, NoDoubleSlash out →
        NoDoubleSlash (if out.length = 0 then bytes "." else out.reverse) := by
      intro out ho
      split
      · exact List.chain'_singleton _
      · exact noDoubleSlash_reverse ho
    simp only
    by_cases hr : path.head? = some slash
    · simp only [hr, decide_True, if_true]
      exact hfin _ (cleanLoop_inv _ _ hroot hrootT)
    · simp only [hr, decide_False, Bool.false_eq_true, if_false]
      exact hfin _ (cleanLoop_inv _ _ hrel hrelT)

/-- The bytes of the path element `housekeeping`. -/
theorem bytes_housekeeping :
    bytes "housekeeping" = [104, 111, 117, 115, 101, 107, 101, 101, 112, 105, 110, 103] := by
  decide

theorem dropWhile_before_slash (z : Str) :
    ∀ y : Str, ∃ y2, (y ++ slash :: z).dropWhile (fun b => b != slash) = y2 ++ slash :: z
  | [] => ⟨[], by simp [List.dropWhile_cons]⟩
  | c :: y => by
    by_cases hc : c = slash
    · exact ⟨c :: y, by simp [List.dropWhile_cons, hc]⟩
    · obtain ⟨y2, hy2⟩ := dropWhile_before_slash z y
      refine ⟨y2, ?_⟩
      have hcs : (c != slash) = true := by simpa using hc
      simp only [List.cons_append, List.dropWhile_cons, hcs, if_true]
      exact hy2

theorem cleanStep_length (rooted : Bool) (c : Nat) (rest out : Str) (dotdot : Nat) :
    (cleanStep rooted c rest out dotdot).1.length ≤ rest.length := by
  unfold cleanStep
  have htail : rest.tail.length ≤ rest.length := by simp
  split
  · exact le_refl _
  split
  · exact le_refl _
  split
  · split
    · exact htail
    · split
      · exact htail
      · exact htail
  · rename_i hc _ _
    have hcs : (c != slash) = true := by simpa using hc
    simp only [List.dropWhile_cons, hcs, if_true]
    exact (List.dropWhile_sublist _).length_le

/-- After one iteration on an unread input that ends in `/housekeeping`, the
unread input is `housekeeping` or still ends in `/housekeeping`. -/
theorem cleanStep_unread (rooted : Bool) (c : Nat) (rest out : Str) (dotdot : Nat) (y : Str)
    (h : c :: rest = y ++ slash :: bytes "housekeeping") :
    (cleanStep rooted c rest out dotdot).1 = bytes "housekeeping" ∨
      ∃ y2, (cleanStep rooted c rest out dotdot).1 = y2 ++ slash :: bytes "housekeeping" := by
  have hrest : rest = bytes "housekeeping" ∨ ∃ y2, rest = y2 ++ slash :: bytes "housekeeping" := by
    cases y with
    | nil =>
      simp only [List.nil_append, List.cons.injEq] at h
      exact Or.inl h.2
    | cons a y2 =>
      simp only [List.cons_append, List.cons.injEq] at h
      exact Or.inr ⟨y2, h.2⟩
  have htail : rest.head? = some dot →
      ∃ y2, rest.tail = y2 ++ slash :: bytes "housekeeping" := by
    intro hd
    rcases hrest with hr | ⟨y2, hr⟩
    · rw [hr, bytes_housekeeping] at hd
      simp at hd
    · cases y2 with
      | nil =>
        rw [hr] at hd
        simp at hd
      | cons a y3 => exact ⟨y3, by rw [hr]; simp⟩
  unfold cleanStep
  split
  · exact hrest
  split
  · exact hrest
  split
  · rename_i hdd
    have := htail hdd.2.1
    split
    · exact Or.inr this
    · split
      · exact Or.inr this
      · exact Or.inr this
  · rw [h]
    exact Or.inr (dropWhile_before_slash _ y)

/-- The iteration that reads the last element `housekeeping`: nothing is left
unread, and the buffer holds `housekeeping` on top of a slash or of nothing. -/
theorem cleanStep_last {rooted : Bool} {out : Str} {dotdot : Nat} (c : Nat) (rest : Str)
    (hp : c :: rest = bytes "housekeeping") (h : BufferInv rooted out dotdot) :
    (cleanStep rooted c rest out dotdot).1 = [] ∧
      ∃ t, (cleanStep rooted c rest out dotdot).2.1 = (bytes "housekeeping").reverse ++ t ∧
        (t = [] ∨ t.head? = some slash) := by
  rw [bytes_housekeeping] at hp ⊢
  simp only [List.cons.injEq] at hp
  obtain ⟨hc, hrest⟩ := hp
  subst hc hrest
  unfold cleanStep
  simp only [show ¬ (104 = slash) by decide, show ¬ (104 = dot) by decide, false_and, if_false]
  refine ⟨by decide, _, rfl, ?_⟩
  split
  · exact Or.inr rfl
  · rename_i hcond
    cases rooted with
    | false =>
      have : out.length = 0 := by simpa using hcond
      exact Or.inl (List.length_eq_zero.mp this)
    | true =>
      have hlen : out.length = 1 := by simpa using hcond
      obtain ⟨hlast, -⟩ := h.root rfl
      obtain ⟨a, ha⟩ := List.length_eq_one.mp hlen
      subst ha
      simp only [List.getLast?_singleton, Option.some.injEq] at hlast
      subst hlast
      exact Or.inr rfl

/-- The loop of `path.Clean` on an input whose last element is
`housekeeping`: it ends with `housekeeping` on top of the buffer, after a
slash or alone. -/
theorem cleanLoop_housekeeping {rooted : Bool} :
    ∀ (fuel : Nat) (p : Str) {out : Str} {dotdot : Nat}, BufferInv rooted out dotdot →
      NoTrailingSlash rooted out → p.length ≤ fuel →
      (p = bytes "housekeeping" ∨ ∃ y, p = y ++ slash :: bytes "housekeeping") →
      ∃ t, cleanLoop rooted fuel p out dotdot = (bytes "housekeeping").reverse ++ t ∧
        (t = [] ∨ t.head? = some slash)
  | 0, p, _, _, _, _, hlen, hform => by
    have hp : p = [] := List.length_eq_zero.mp (Nat.le_zero.mp hlen)
    subst hp
    rcases hform with hf | ⟨y, hf⟩
    · rw [bytes_housekeeping] at hf
      simp at hf
    · simp at hf
  | fuel + 1, [], _, _, _, _, _, hform => by
    rcases hform with hf | ⟨y, hf⟩
    · rw [bytes_housekeeping] at hf
      simp at hf
    · simp at hf
  | fuel + 1, c :: rest, out, dotdot, h, ht, hlen, hform => by
    simp only [cleanLoop]
    rcases hform with hf | ⟨y, hf⟩
    · obtain ⟨h1, t, h2, h3⟩ := cleanStep_last c rest hf h
      refine ⟨t, ?_, h3⟩
      rw [h1, h2]
      cases fuel <;> rfl
    · have hinv := cleanStep_inv c rest h ht
      have hl := cleanStep_length rooted c rest out dotdot
      have hl2 : (cleanStep rooted c rest out dotdot).1.length ≤ fuel := by
        simp only [List.length_cons] at hlen
        omega
      exact cleanLoop_housekeeping fuel _ hinv.1 hinv.2 hl2
        (cleanStep_unread rooted c rest out dotdot y hf)

/-- The result of `path.Clean` on a path whose last element is
`housekeeping` is `housekeeping` or ends in `/housekeeping`. -/
theorem Clean_housekeeping (p : Str)
    (hform : p = bytes "housekeeping" ∨ ∃ y, p = y ++ slash :: bytes "housekeeping") :
    Clean p = bytes "housekeeping" ∨ bytes "/housekeeping" <:+ Clean p := by
  have hfin : ∀ out : Str,
      (∃ t, out = (bytes "housekeeping").reverse ++ t ∧ (t = [] ∨ t.head? = some slash)) →
      (if out.length = 0 then bytes "." else out.reverse) = bytes "housekeeping" ∨
        bytes "/housekeeping" <:+ (if out.length = 0 then bytes "." else out.reverse) := by
    rintro out ⟨t, hout, ht⟩
    have hne : ¬ out.length = 0 := by
      rw [hout, bytes_housekeeping]
      simp
    rw [if_neg hne, hout]
    rcases ht with ht | ht
    · subst ht
      left
      simp
    · right
      cases t with
      | nil => simp at ht
      | cons a t2 =>
        simp only [List.head?_cons, Option.some.injEq] at ht
        subst ht
        refine ⟨t2.reverse, ?_⟩
        have e : bytes "/housekeeping" = slash :: bytes "housekeeping" := by decide
        rw [e]
        simp
  have hpne : p ≠ [] := by
    rcases hform with hf | ⟨y, hf⟩
    · rw [hf, bytes_housekeeping]; simp
    · rw [hf]; simp
  have hroot : BufferInv true [slash] 1 :=
    ⟨List.chain'_singleton _, by simp, by simp, by simp, by simp⟩
  have hrootT : NoTrailingSlash true [slash] := by intro h; simp at h
  have hrel : BufferInv false [] 0 := ⟨List.chain'_nil, by simp, by simp, by simp, by simp⟩
  have hrelT : NoTrailingSlash false [] := by intro h; simp at h
  unfold Clean
  rw [if_neg hpne]
  simp only
  by_cases hr : p.head? = some slash
  · simp only [hr, decide_True, if_true]
    apply hfin
    refine cleanLoop_housekeeping _ _ hroot hrootT (by simp) ?_
    rcases hform with hf | ⟨y, hf⟩
    · rw [hf, bytes_housekeeping] at hr
      simp at hr
    · cases y with
      | nil => left; rw [hf]; simp
      | cons a y2 => right; exact ⟨y2, by rw [hf]; simp⟩
  · simp only [hr, decide_False, Bool.false_eq_true, if_false]
    apply hfin
    exact cleanLoop_housekeeping _ _ hrel hrelT (le_refl _) hform

/-- The path the hook computes, `path.Join(p, "housekeeping")`, is
`housekeeping` or ends in `/housekeeping`. -/
theorem Join_housekeeping (p : Str) :
    Join [p, bytes "housekeeping"] = bytes "housekeeping" ∨
      bytes "/housekeeping" <:+ Join [p, bytes "housekeeping"] := by
  have hk : bytes "housekeeping" ≠ [] := by decide
  by_cases hp : p = []
  · subst hp
    simp only [Join, ne_eq, not_true_eq_false, if_false, hk, not_false_eq_true, if_true,
      stringsJoin]
    exact Clean_housekeeping _ (Or.inl rfl)
  · simp only [Join, ne_eq, hp, not_false_eq_true, if_true, stringsJoin]
    refine Clean_housekeeping _ (Or.inr ⟨p, ?_⟩)
    have e : bytes "/" = [slash] := by decide
    rw [e]
    simp

theorem Join_noDoubleSlash (p : Str) : ¬ bytes "//" <:+: Join [p, bytes "housekeeping"] := by
  have hk : bytes "housekeeping" ≠ [] := by decide
  by_cases hp : p = []
  · subst hp
    simp only [Join, ne_eq, not_true_eq_false, if_false, hk, not_false_eq_true, if_true]
    exact noDoubleSlash_spec (Clean_noDoubleSlash _)
  · simp only [Join, ne_eq, hp, not_false_eq_true, if_true]
    exact noDoubleSlash_spec (Clean_noDoubleSlash _)

theorem Join_ne_nil (p : Str) : Join [p, bytes "housekeeping"] ≠ [] := by
  intro h
  rcases Join_housekeeping p with h1 | ⟨t, h1⟩
  · rw [h] at h1
    exact absurd h1 (by decide)
  · rw [h] at h1
    have : (t ++ bytes "/housekeeping").length = 0 := by rw [h1]; rfl
    rw [List.length_append] at this
    have h2 : (bytes "/housekeeping").length = 13 := by decide
    omega

/-- The loop of `path.Clean` never runs out of iterations: with any bound of
at least the length of the unread input it gives the same result. -/
theorem cleanLoop_fuel {rooted : Bool} :
    ∀ (f1 f2 : Nat) (p out : Str) (dotdot : Nat), p.length ≤ f1 → p.length ≤ f2 →
      cleanLoop rooted f1 p out dotdot = cleanLoop rooted f2 p out dotdot
  | 0, f2, p, out, dotdot, h1, _ => by
    have hp : p = [] := List.length_eq_zero.mp (Nat.le_zero.mp h1)
    subst hp
    cases f2 <;> rfl
  | f1 + 1, f2, [], out, dotdot, _, _ => by
    cases f2 <;> rfl
  | f1 + 1, 0, c :: rest, out, dotdot, _, h2 => by simp at h2
  | f1 + 1, f2 + 1, c :: rest, out, dotdot, h1, h2 => by
    simp only [cleanLoop]
    have hl := cleanStep_length rooted c rest out dotdot
    simp only [List.length_cons] at h1 h2
    exact cleanLoop_fuel f1 f2 _ _ _ (by omega) (by omega)

theorem takeWhile_append_slash (w : Str) :
    ∀ y : Str, (y ++ slash :: w).takeWhile (fun b => b != slash) =
      y.takeWhile (fun b => b != slash)
  | [] => by simp [List.takeWhile_cons]
  | c :: y => by
    by_cases hc : c = slash
    · simp [List.takeWhile_cons, hc]
    · have hcs : (c != slash) = true := by simpa using hc
      simp only [List.cons_append, List.takeWhile_cons, hcs, if_true]
      rw [takeWhile_append_slash w y]

theorem dropWhile_append_slash (w : Str) :
    ∀ y : Str, (y ++ slash :: w).dropWhile (fun b => b != slash) =
      y.dropWhile (fun b => b != slash) ++ slash :: w
  | [] => by simp [List.dropWhile_cons]
  | c :: y => by
    by_cases hc : c = slash
    · simp [List.dropWhile_cons, hc]
    · have hcs : (c != slash) = true := by simpa using hc
      simp only [List.cons_append, List.dropWhile_cons, hcs, if_true]
      exact dropWhile_append_slash w y

/-- One iteration of the loop on an unread input `c :: y ++ "/" ++ w` does
not look beyond the slash: what it leaves unread is some `y2 ++ "/" ++ w`,
and `y2`, the buffer and `dotdot` do not depend on `w`. -/
theorem cleanStep_before_slash (rooted : Bool) (c : Nat) (y out : Str) (dotdot : Nat) :
    ∃ (y2 o : Str) (d : Nat), y2.length ≤ y.length ∧
      ∀ w, cleanStep rooted c (y ++ slash :: w) out dotdot = (y2 ++ slash :: w, o, d) := by
  by_cases h1 : c = slash
  · exact ⟨y, out, dotdot, le_refl _, fun w => by simp [cleanStep, h1]⟩
  have hcs : (c != slash) = true := by simpa using h1
  -- the real path element case, whatever follows
  have hdef : ∀ w, ((c :: (y ++ slash :: w)).dropWhile (fun b => b != slash),
      ((c :: (y ++ slash :: w)).takeWhile (fun b => b != slash)).reverse ++
        (if (rooted = true ∧ out.length ≠ 1) ∨ (rooted = false ∧ out.length ≠ 0)
          then slash :: out else out), dotdot) =
      (y.dropWhile (fun b => b != slash) ++ slash :: w,
        ((c :: y).takeWhile (fun b => b != slash)).reverse ++
          (if (rooted = true ∧ out.length ≠ 1) ∨ (rooted = false ∧ out.length ≠ 0)
            then slash :: out else out), dotdot) := by
    intro w
    have e1 := dropWhile_append_slash w (c :: y)
    have e2 := takeWhile_append_slash w (c :: y)
    rw [List.cons_append] at e1 e2
    rw [e1, e2]
    simp only [List.dropWhile_cons (x := c), hcs, if_true]
  have hdl : (y.dropWhile (fun b => b != slash)).length ≤ y.length :=
    (List.dropWhile_sublist _).length_le
  have hfin : (∀ w, cleanStep rooted c (y ++ slash :: w) out dotdot =
      ((c :: (y ++ slash :: w)).dropWhile (fun b => b != slash),
        ((c :: (y ++ slash :: w)).takeWhile (fun b => b != slash)).reverse ++
          (if (rooted = true ∧ out.length ≠ 1) ∨ (rooted = false ∧ out.length ≠ 0)
            then slash :: out else out), dotdot)) →
      ∃ (y2 o : Str) (d : Nat), y2.length ≤ y.length ∧
        ∀ w, cleanStep rooted c (y ++ slash :: w) out dotdot = (y2 ++ slash :: w, o, d) :=
    fun h => ⟨y.dropWhile (fun b => b != slash),
      ((c :: y).takeWhile (fun b => b != slash)).reverse ++
        (if (rooted = true ∧ out.length ≠ 1) ∨ (rooted = false ∧ out.length ≠ 0)
          then slash :: out else out), dotdot, hdl, fun w => by rw [h w, hdef w]⟩
  clear hdef hdl
  by_cases h2 : c = dot
  · subst h2
    cases y with
    | nil =>
      exact ⟨[], out, dotdot, le_refl _, fun w => by simp [cleanStep]⟩
    | cons a y1 =>
      by_cases ha : a = slash
      · subst ha
        exact ⟨slash :: y1, out, dotdot, le_refl _, fun w => by simp [cleanStep]⟩
      by_cases hb : a = dot
      · subst hb
        cases y1 with
        | nil =>
          by_cases h4 : out.length > dotdot
          · exact ⟨[], backtrack dotdot out, dotdot, by simp, fun w => by
              simp [cleanStep, h4]⟩
          · by_cases h5 : rooted = false
            · exact ⟨[], dot :: dot :: (if out.length > 0 then slash :: out else out),
                (dot :: dot :: (if out.length > 0 then slash :: out else out)).length,
                by simp, fun w => by
                  simp only [cleanStep, h4, h5]
                  simp⟩
            · exact ⟨[], out, dotdot, by simp, fun w => by simp [cleanStep, h4, h5]⟩
        | cons b y3 =>
          by_cases hbs : b = slash
          · subst hbs
            by_cases h4 : out.length > dotdot
            · exact ⟨slash :: y3, backtrack dotdot out, dotdot, by simp, fun w => by
                simp [cleanStep, h4]⟩
            · by_cases h5 : rooted = false
              · exact ⟨slash :: y3, dot :: dot :: (if out.length > 0 then slash :: out else out),
                  (dot :: dot :: (if out.length > 0 then slash :: out else out)).length,
                  by simp, fun w => by
                    simp only [cleanStep, h4, h5]
                    simp⟩
              · exact ⟨slash :: y3, out, dotdot, by simp, fun w => by
                  simp [cleanStep, h4, h5]⟩
          · apply hfin
            intro w
            simp [cleanStep, hbs]
      · apply hfin
        intro w
        simp [cleanStep, ha, hb]
  · apply hfin
    intro w
    simp only [cleanStep, h1, h2, false_and, if_false]

/-- A doubled slash in the unread input leaves the result of the loop of
`path.Clean` unchanged. -/
theorem cleanLoop_double_slash {rooted : Bool} (z : Str) :
    ∀ (n : Nat) (y out : Str) (dotdot f1 f2 : Nat), y.length ≤ n →
      (y ++ slash :: slash :: z).length ≤ f1 → (y ++ slash :: z).length ≤ f2 →
      cleanLoop rooted f1 (y ++ slash :: slash :: z) out dotdot =
        cleanLoop rooted f2 (y ++ slash :: z) out dotdot := by
  intro n
  induction n with
  | zero =>
    intro y out dotdot f1 f2 hn h1 h2
    have hy : y = [] := List.length_eq_zero.mp (Nat.le_zero.mp hn)
    subst hy
    cases f1 with
    | zero => simp at h1
    | succ f1 =>
      show cleanLoop rooted (f1 + 1) (slash :: slash :: z) out dotdot =
        cleanLoop rooted f2 (slash :: z) out dotdot
      have e : cleanStep rooted slash (slash :: z) out dotdot = (slash :: z, out, dotdot) := by
        simp [cleanStep]
      simp only [cleanLoop, e]
      simp only [List.nil_append, List.length_cons] at h1 h2
      exact cleanLoop_fuel _ _ _ _ _ (by simp only [List.length_cons]; omega)
        (by simp only [List.length_cons]; omega)
  | succ n ih =>
    intro y out dotdot f1 f2 hn h1 h2
    cases y with
    | nil =>
      cases f1 with
      | zero => simp at h1
      | succ f1 =>
        show cleanLoop rooted (f1 + 1) (slash :: slash :: z) out dotdot =
          cleanLoop rooted f2 (slash :: z) out dotdot
        have e : cleanStep rooted slash (slash :: z) out dotdot = (slash :: z, out, dotdot) := by
          simp [cleanStep]
        simp only [cleanLoop, e]
        simp only [List.nil_append, List.length_cons] at h1 h2
        exact cleanLoop_fuel _ _ _ _ _ (by simp only [List.length_cons]; omega)
          (by simp only [List.length_cons]; omega)
    | cons c y =>
      cases f1 with
      | zero => simp at h1
      | succ f1 =>
        cases f2 with
        | zero => simp at h2
        | succ f2 =>
          obtain ⟨y2, o, d, hy2, hstep⟩ := cleanStep_before_slash rooted c y out dotdot
          show cleanLoop rooted (f1 + 1) (c :: (y ++ slash :: slash :: z)) out dotdot =
            cleanLoop rooted (f2 + 1) (c :: (y ++ slash :: z)) out dotdot
          simp only [cleanLoop]
          rw [hstep (slash :: z), hstep z]
          simp only [List.cons_append, List.length_cons, List.length_append] at hn h1 h2
          exact ih y2 o d f1 f2 (by omega)
            (by simp only [List.length_append, List.length_cons]; omega)
            (by simp only [List.length_append, List.length_cons]; omega)

/-- A doubled slash leaves the result of `path.Clean` unchanged. -/
theorem Clean_double_slash (c : Nat) (y z : Str) :
    Clean (c :: (y ++ slash :: slash :: z)) = Clean (c :: (y ++ slash :: z)) := by
  unfold Clean
  simp only [reduceCtorEq, if_false, List.head?_cons, List.tail_cons]
  by_cases hc : c = slash
  · simp only [hc, decide_True, if_true]
    rw [cleanLoop_double_slash z y.length y [slash] 1 _
      (slash :: (y ++ slash :: z)).length (le_refl _)
      (by simp only [List.length_cons, List.length_append]; omega)
      (by simp only [List.length_cons, List.length_append]; omega)]
  · have hd : decide (some c = some slash) = false := by simpa using hc
    simp only [hd, Bool.false_eq_true, if_false]
    have := @cleanLoop_double_slash false z (y.length + 1) (c :: y) [] 0
      (c :: (y ++ slash :: slash :: z)).length
      (c :: (y ++ slash :: z)).length (le_refl _) (le_refl _) (le_refl _)
    rw [List.cons_append, List.cons_append] at this
    rw [this]

/-- A trailing slash on a non-empty path does not change the path the hook
computes: `path.Join(p + "/", "housekeeping") = path.Join(p, "housekeeping")`. -/
theorem Join_trailing_slash (p : Str) (hp : p ≠ []) :
    Join [p ++ bytes "/", bytes "housekeeping"] = Join [p, bytes "housekeeping"] := by
  have e : bytes "/" = [slash] := by decide
  have hp2 : p ++ [slash] ≠ [] := by simp
  cases p with
  | nil => exact absurd rfl hp
  | cons c y =>
    have e1 : stringsJoin [c :: y ++ [slash], bytes "housekeeping"] [slash] =
        c :: (y ++ slash :: slash :: bytes "housekeeping") := by
      simp [stringsJoin]
    have e2 : stringsJoin [c :: y, bytes "housekeeping"] [slash] =
        c :: (y ++ slash :: bytes "housekeeping") := by
      simp [stringsJoin]
    simp only [Join, e, ne_eq, hp, hp2, not_false_eq_true, if_true, e1, e2]
    exact Clean_double_slash c y _

theorem escape_ne_nil (s : Str) (mode : encoding) (h : s ≠ []) : escape s mode ≠ [] := by
  unfold escape
  split
  · exact h
  · cases s with
    | nil => exact absurd rfl h
    | cons c t =>
      simp only [List.flatMap_cons]
      intro hnil
      have h1 := (List.append_eq_nil.mp hnil).1
      split at h1 <;> try split at h1
      all_goals simp at h1

theorem EscapedPath_ne_nil (u : URL) (h : u.Path ≠ []) : u.EscapedPath ≠ [] := by
  unfold URL.EscapedPath
  simp only
  split
  · rename_i hfits
    simp only [Bool.and_eq_true, decide_eq_true_eq] at hfits
    exact hfits.1.1
  · split
    · decide
    · exact escape_ne_nil _ _ h

/-- The parts `(*URL).String()` writes, in order. -/
theorem String_parts (u : URL) :
    u.String =
      (if u.Opaque ≠ [] then (if u.Scheme ≠ [] then u.Scheme ++ bytes ":" else []) ++ u.Opaque
        else u.beforePath ++ u.EscapedPath) ++ u.queryPart ++ u.fragmentPart := by
  have h : u.String =
      (fun buf : Str => if u.Fragment ≠ [] then buf ++ bytes "#" ++ u.EscapedFragment else buf)
        ((fun buf : Str =>
            if u.ForceQuery ∨ u.RawQuery ≠ [] then buf ++ bytes "?" ++ u.RawQuery else buf)
          (if u.Opaque ≠ [] then
            (if u.Scheme ≠ [] then u.Scheme ++ bytes ":" else []) ++ u.Opaque
           else u.beforePath ++ u.EscapedPath)) := rfl
  rw [h]
  unfold URL.queryPart URL.fragmentPart
  generalize (if u.Opaque ≠ [] then
      (if u.Scheme ≠ [] then u.Scheme ++ bytes ":" else []) ++ u.Opaque
    else u.beforePath ++ u.EscapedPath) = body
  by_cases hq : u.ForceQuery ∨ u.RawQuery ≠ [] <;> by_cases hf : u.Fragment = [] <;>
    simp [hq, hf]

theorem String_core (u : URL) : u.core <:+: u.String := by
  rw [String_parts]
  unfold URL.core
  split
  · exact ⟨if u.Scheme ≠ [] then u.Scheme ++ bytes ":" else [], u.queryPart ++ u.fragmentPart,
      by simp only [List.append_assoc]⟩
  · exact ⟨u.beforePath, u.queryPart ++ u.fragmentPart, by simp only [List.append_assoc]⟩

theorem String_ne_nil (u : URL) (h : u.Path ≠ []) : u.String ≠ [] := by
  intro hnil
  have hc := String_core u
  rw [hnil] at hc
  have hcore : u.core = [] := List.eq_nil_of_infix_nil hc
  unfold URL.core at hcore
  split at hcore
  · rename_i ho
    exact ho hcore
  · exact EscapedPath_ne_nil u h hcore

theorem SignedString_ne_nil (env : Env Key E) (t : Token) (key : Key) (s : Str)
    (h : SignedString env t key = .ok s) : s ≠ [] := by
  unfold SignedString at h
  split at h
  · simp at h
  · split at h
    · simp at h
    · simp only [Except.ok.injEq] at h
      rw [← h]
      simp only [stringsJoin]
      have e : bytes "." = [dot] := by decide
      rw [e]
      simp

theorem generateHousekeepingJWT_ne_nil (env : Env Key E) (privateKey : Str)
    (h : (generateHousekeepingJWT env privateKey).1.2 = none) :
    (generateHousekeepingJWT env privateKey).1.1 ≠ [] := by
  unfold generateHousekeepingJWT at h ⊢
  cases hr : env.ReadFile privateKey with
  | error e => simp [hr] at h
  | ok keyPEM =>
    cases hp : env.ParseRSAPrivateKeyFromPEM keyPEM with
    | error e => simp [hr, hp] at h
    | ok key =>
      simp only [hr, hp] at h ⊢
      split
      · rename_i err hs
        simp [hs] at h
      · rename_i tokenString hs
        exact SignedString_ne_nil env _ key _ hs

theorem String_hierarchical (u : URL) (hs : u.Scheme ≠ []) (hh : u.Host ≠ [])
    (ho : u.Opaque = []) :
    u.String = u.Scheme ++ bytes "://" ++ u.userinfoPart ++ escape u.Host encodeHost ++
      (if u.EscapedPath ≠ [] ∧ u.EscapedPath.head? ≠ some slash then bytes "/" else []) ++
      u.EscapedPath ++ u.queryPart ++ u.fragmentPart := by
  have e1 : bytes "://" = bytes ":" ++ bytes "//" := by decide
  have e2 : bytes ":" ≠ [] := by decide
  unfold URL.String URL.userinfoPart URL.queryPart URL.fragmentPart
  simp only [hs, hh, ho, ne_eq, not_true_eq_false, not_false_eq_true, if_true, if_false,
    true_or, or_true, and_true, e1]
  have hlen : ∀ (a b : Str), ¬ (u.Scheme ++ a ++ b).length = 0 := by
    intro a b h
    rw [List.length_append, List.length_append] at h
    have := List.length_pos.mpr hs
    omega
  cases hu : u.User with
  | none =>
    simp only [List.append_nil]
    split_ifs <;> simp_all [List.append_assoc]
  | some ui =>
    simp only
    split_ifs <;> simp_all [List.append_assoc]

theorem upperhex_facts : ∀ i < 16, ishex (upperhex i) = true ∧ unhex (upperhex i) = i ∧
    upperhex i ≠ '?'.toNat ∧ upperhex i ≠ '#'.toNat := by
  decide

theorem escape_path_eq (s : Str) : escape s encodePath = s.flatMap escapeByte := by
  unfold escape
  have hf : ∀ c : Nat, (if c = ' '.toNat ∧ encodePath = encodeQueryComponent then ['+'.toNat]
      else if shouldEscape c encodePath then
        ['%'.toNat, upperhex (c / 16 % 16), upperhex (c % 16)]
      else [c]) = escapeByte c := by
    intro c
    unfold escapeByte
    simp
  simp only [hf]
  split
  · rename_i hall
    induction s with
    | nil => rfl
    | cons c t ih =>
      simp only [List.all_cons, Bool.and_eq_true, Bool.not_eq_true', List.flatMap_cons] at hall ⊢
      rw [← ih hall.2]
      unfold escapeByte
      simp [hall.1]
  · rfl

theorem unescapeCheck_plain (c : Nat) (rest : Str) (n : Nat) (hp : Bool)
    (hc : c ≠ '%'.toNat) :
    unescapeCheck encodePath (c :: rest) n hp =
      unescapeCheck encodePath rest n (if c = '+'.toNat then false else hp) := by
  have hc2 : ¬ c = 37 := hc
  conv_lhs => unfold unescapeCheck
  by_cases h : c = 43
  · simp [hc2, h]
  · simp [hc2, h]

theorem unescapeCheck_escaped (h1 h2 : Nat) (rest : Str) (n : Nat) (hp : Bool)
    (hh1 : ishex h1 = true) (hh2 : ishex h2 = true) :
    unescapeCheck encodePath ('%'.toNat :: h1 :: h2 :: rest) n hp =
      unescapeCheck encodePath rest (n + 1) hp := by
  conv_lhs => unfold unescapeCheck
  simp [hh1, hh2]

theorem unescapeWrite_plain (c : Nat) (rest : Str) (hc : c ≠ '%'.toNat) :
    unescapeWrite encodePath (c :: rest) = c :: unescapeWrite encodePath rest := by
  have hc2 : ¬ c = 37 := hc
  conv_lhs => unfold unescapeWrite
  by_cases h : c = 43
  · simp [hc2, h]
  · simp [hc2, h]

theorem unescapeWrite_escaped (h1 h2 : Nat) (rest : Str) :
    unescapeWrite encodePath ('%'.toNat :: h1 :: h2 :: rest) =
      (unhex h1 * 16 + unhex h2) :: unescapeWrite encodePath rest := by
  conv_lhs => unfold unescapeWrite
  simp

theorem unescapeCheck_escape (s : Str) :
    ∀ n : Nat, unescapeCheck encodePath (s.flatMap escapeByte) n false =
      .ok (n + s.countP (fun c => shouldEscape c encodePath), false) := by
  induction s with
  | nil => intro n; rfl
  | cons c t ih =>
    intro n
    have h37 : shouldEscape '%'.toNat encodePath = true := by decide
    by_cases hc : shouldEscape c encodePath = true
    · have h1 := upperhex_facts (c / 16 % 16) (Nat.mod_lt _ (by decide))
      have h2 := upperhex_facts (c % 16) (Nat.mod_lt _ (by decide))
      simp only [List.flatMap_cons, escapeByte, hc, if_true, List.cons_append, List.nil_append]
      rw [unescapeCheck_escaped _ _ _ _ _ h1.1 h2.1, ih (n + 1)]
      simp only [List.countP_cons, hc, if_true]
      congr 2
      omega
    · have hc2 : shouldEscape c encodePath = false := by simpa using hc
      have hne : c ≠ '%'.toNat := by
        intro h
        rw [h] at hc
        exact hc h37
      simp only [List.flatMap_cons, escapeByte, hc2, Bool.false_eq_true, if_false,
        List.cons_append, List.nil_append]
      rw [unescapeCheck_plain _ _ _ _ hne]
      simp only [ite_self, List.countP_cons, hc2, Bool.false_eq_true, if_false, Nat.add_zero]
      exact ih n

theorem flatMap_escapeByte_of_count (s : Str)
    (h : s.countP (fun c => shouldEscape c encodePath) = 0) : s.flatMap escapeByte = s := by
  induction s with
  | nil => rfl
  | cons c t ih =>
    by_cases hc : shouldEscape c encodePath = true
    · simp only [List.countP_cons, hc, if_true] at h
      omega
    · have hc2 : shouldEscape c encodePath = false := by simpa using hc
      simp only [List.countP_cons, hc2, Bool.false_eq_true, if_false, Nat.add_zero] at h
      simp only [List.flatMap_cons, escapeByte, hc2, Bool.false_eq_true, if_false,
        List.cons_append, List.nil_append]
      rw [ih h]

theorem unescapeWrite_escape (s : Str) (hb : ∀ b ∈ s, b < 256) :
    unescapeWrite encodePath (s.flatMap escapeByte) = s := by
  induction s with
  | nil => rfl
  | cons c t ih =>
    have hc256 : c < 256 := hb c (List.mem_cons_self c t)
    have iht := ih (fun b hbt => hb b (List.mem_cons_of_mem c hbt))
    have h37 : shouldEscape '%'.toNat encodePath = true := by decide
    by_cases hc : shouldEscape c encodePath = true
    · have h1 := upperhex_facts (c / 16 % 16) (Nat.mod_lt _ (by decide))
      have h2 := upperhex_facts (c % 16) (Nat.mod_lt _ (by decide))
      simp only [List.flatMap_cons, escapeByte, hc, if_true, List.cons_append, List.nil_append]
      rw [unescapeWrite_escaped, iht, h1.2.1, h2.2.1]
      congr 1
      omega
    · have hc2 : shouldEscape c encodePath = false := by simpa using hc
      have hne : c ≠ '%'.toNat := by
        intro h
        rw [h] at hc
        exact hc h37
      simp only [List.flatMap_cons, escapeByte, hc2, Bool.false_eq_true, if_false,
        List.cons_append, List.nil_append]
      rw [unescapeWrite_plain _ _ hne, iht]

/-- Decoding the default encoding of a path gives the path back. -/
theorem unescape_escape_path (s : Str) (hb : ∀ b ∈ s, b < 256) :
    unescape (escape s encodePath) encodePath = .ok s := by
  rw [escape_path_eq]
  unfold unescape
  rw [unescapeCheck_escape s 0]
  simp only [Nat.zero_add, and_true]
  split
  · rename_i h0
    rw [flatMap_escapeByte_of_count s h0]
  · rw [unescapeWrite_escape s hb]

theorem backtrack_subset (dotdot : Nat) : ∀ (out : Str), ∀ b ∈ backtrack dotdot out, b ∈ out
  | [], b, hb => by simp [backtrack] at hb
  | c :: out, b, hb => by
    unfold backtrack at hb
    split at hb
    · exact List.mem_cons_of_mem c (backtrack_subset dotdot out b hb)
    · exact List.mem_cons_of_mem c hb

theorem cleanStep_forall (P : Nat → Prop) (hs : P slash) (hd : P dot) (rooted : Bool)
    (c : Nat) (rest out : Str) (dotdot : Nat)
    (hin : ∀ b ∈ c :: rest, P b) (hout : ∀ b ∈ out, P b) :
    (∀ b ∈ (cleanStep rooted c rest out dotdot).1, P b) ∧
      (∀ b ∈ (cleanStep rooted c rest out dotdot).2.1, P b) := by
  have hrest : ∀ b ∈ rest, P b := fun b hb => hin b (List.mem_cons_of_mem c hb)
  have htail : ∀ b ∈ rest.tail, P b := fun b hb => hrest b (List.mem_of_mem_tail hb)
  unfold cleanStep
  split
  · exact ⟨hrest, hout⟩
  split
  · exact ⟨hrest, hout⟩
  split
  · split
    · exact ⟨htail, fun b hb => hout b (backtrack_subset dotdot out b hb)⟩
    · split
      · refine ⟨htail, ?_⟩
        intro b hb
        simp only [List.mem_cons] at hb
        rcases hb with hb | hb | hb
        · rw [hb]; exact hd
        · rw [hb]; exact hd
        · split at hb
          · simp only [List.mem_cons] at hb
            rcases hb with hb | hb
            · rw [hb]; exact hs
            · exact hout b hb
          · exact hout b hb
      · exact ⟨htail, hout⟩
  · refine ⟨fun b hb => ?_, fun b hb => ?_⟩
    · have hb2 : b ∈ (c :: rest).dropWhile (fun b => b != slash) := hb
      exact hin b ((List.dropWhile_sublist _).subset hb2)
    have hb2 : b ∈ ((c :: rest).takeWhile (fun b => b != slash)).reverse ++
        (if (rooted = true ∧ out.length ≠ 1) ∨ (rooted = false ∧ out.length ≠ 0)
          then slash :: out else out) := hb
    clear hb
    rename' hb2 => hb
    simp only [List.mem_append, List.mem_reverse] at hb
    rcases hb with hb | hb
    · exact hin b ((List.takeWhile_sublist _).subset hb)
    · split at hb
      · simp only [List.mem_cons] at hb
        rcases hb with hb | hb
        · rw [hb]; exact hs
        · exact hout b hb
      · exact hout b hb

theorem cleanLoop_forall (P : Nat → Prop) (hs : P slash) (hd : P dot) (rooted : Bool) :
    ∀ (fuel : Nat) (p out : Str) (dotdot : Nat), (∀ b ∈ p, P b) → (∀ b ∈ out, P b) →
      ∀ b ∈ cleanLoop rooted fuel p out dotdot, P b
  | 0, _, _, _, _, hout => by simpa [cleanLoop] using hout
  | _ + 1, [], _, _, _, hout => by simpa [cleanLoop] using hout
  | fuel + 1, c :: rest, out, dotdot, hin, hout => by
    simp only [cleanLoop]
    have h := cleanStep_forall P hs hd rooted c rest out dotdot hin hout
    exact cleanLoop_forall P hs hd rooted fuel _ _ _ h.1 h.2

/-- Every byte of `path.Clean(path)` is a byte of `path`, a slash or a dot. -/
theorem Clean_forall (P : Nat → Prop) (hs : P slash) (hd : P dot) (path : Str)
    (hin : ∀ b ∈ path, P b) : ∀ b ∈ Clean path, P b := by
  have hdot : ∀ b ∈ bytes ".", P b := by
    intro b hb
    have e : bytes "." = [dot] := by decide
    rw [e, List.mem_singleton] at hb
    rw [hb]; exact hd
  have hfin : ∀ out : Str, (∀ b ∈ out, P b) →
      ∀ b ∈ (if out.length = 0 then bytes "." else out.reverse), P b := by
    intro out ho b hb
    split at hb
    · exact hdot b hb
    · exact ho b (List.mem_reverse.mp hb)
  unfold Clean
  split
  · exact hdot
  · simp only
    by_cases hr : path.head? = some slash
    · simp only [hr, decide_True, if_true]
      refine hfin _ (cleanLoop_forall P hs hd _ _ _ _ _
        (fun b hb => hin b (List.mem_of_mem_tail hb)) ?_)
      intro b hb
      rw [List.mem_singleton] at hb
      rw [hb]; exact hs
    · simp only [hr, decide_False, Bool.false_eq_true, if_false]
      exact hfin _ (cleanLoop_forall P hs hd _ _ _ _ _ hin (by simp))

/-- The path the hook computes is a Go string when the parent path is. -/
theorem Join_bytes (p : Str) (hp : ∀ b ∈ p, b < 256) :
    ∀ b ∈ Join [p, bytes "housekeeping"], b < 256 := by
  have hk : bytes "housekeeping" ≠ [] := by decide
  have hkb : ∀ b ∈ bytes "housekeeping", b < 256 := by decide
  have e : bytes "/" = [slash] := by decide
  by_cases hpn : p = []
  · subst hpn
    simp only [Join, ne_eq, not_true_eq_false, if_false, hk, not_false_eq_true, if_true,
      stringsJoin]
    exact Clean_forall _ (by decide) (by decide) _ hkb
  · simp only [Join, ne_eq, hpn, not_false_eq_true, if_true, stringsJoin, e]
    refine Clean_forall _ (by decide) (by decide) _ ?_
    intro b hb
    simp only [List.mem_append, List.mem_singleton] at hb
    rcases hb with (hb | hb) | hb
    · exact hp b hb
    · rw [hb]; decide
    · exact hkb b hb

theorem escape_path_no_delim (s : Str) :
    '?'.toNat ∉ escape s encodePath ∧ '#'.toNat ∉ escape s encodePath := by
  rw [escape_path_eq]
  have h63 : shouldEscape '?'.toNat encodePath = true := by decide
  have h35 : shouldEscape '#'.toNat encodePath = true := by decide
  have key : ∀ d : Nat, shouldEscape d encodePath = true → d ≠ '%'.toNat →
      (∀ i < 16, upperhex i ≠ d) → d ∉ s.flatMap escapeByte := by
    intro d hd hd37 hhex hmem
    rw [List.mem_flatMap] at hmem
    obtain ⟨c, _, hc⟩ := hmem
    unfold escapeByte at hc
    split at hc
    · simp only [List.mem_cons, List.mem_singleton, List.not_mem_nil, or_false] at hc
      rcases hc with hc | hc | hc
      · exact hd37 hc
      · exact hhex _ (Nat.mod_lt _ (by decide)) hc.symm
      · exact hhex _ (Nat.mod_lt _ (by decide)) hc.symm
    · rename_i hne
      rw [List.mem_singleton] at hc
      rw [hc] at hd
      exact hne hd
  exact ⟨key _ h63 (by decide) (fun i hi => (upperhex_facts i hi).2.2.1),
    key _ h35 (by decide) (fun i hi => (upperhex_facts i hi).2.2.2)⟩

/-- The encoded path `(*URL).String()` writes holds no `?` and no `#`: it
ends where the query or the fragment starts. -/
theorem EscapedPath_no_delim (u : URL) :
    '?'.toNat ∉ u.EscapedPath ∧ '#'.toNat ∉ u.EscapedPath := by
  unfold URL.EscapedPath
  simp only
  split
  · rename_i hfits
    simp only [Bool.and_eq_true, decide_eq_true_eq] at hfits
    have hv := hfits.1.2
    unfold validEncoded at hv
    rw [List.all_eq_true] at hv
    constructor
    · intro hm
      have := hv _ hm
      revert this
      decide
    · intro hm
      have := hv _ hm
      revert this
      decide
  · split
    · decide
    · exact escape_path_no_delim _

/-- Decoding the encoded path `(*URL).String()` writes gives the path. -/
theorem EscapedPath_decode (u : URL) (hb : ∀ b ∈ u.Path, b < 256) :
    unescape u.EscapedPath encodePath = .ok u.Path := by
  unfold URL.EscapedPath
  simp only
  split
  · rename_i hfits
    simp only [Bool.and_eq_true, decide_eq_true_eq] at hfits
    have h3 := hfits.2
    split at h3
    · rename_i p hp
      simp only [decide_eq_true_eq] at h3
      rw [hp, h3]
    · simp at h3
  · split
    · rename_i hstar
      rw [hstar]
      rfl
    · exact unescape_escape_path _ hb

theorem cleanLoop_bufferInv {rooted : Bool} :
    ∀ (fuel : Nat) (p : Str) {out : Str} {dotdot : Nat}, BufferInv rooted out dotdot →
      NoTrailingSlash rooted out → ∃ d, BufferInv rooted (cleanLoop rooted fuel p out dotdot) d
  | 0, _, _, d, h, _ => ⟨d, by simpa [cleanLoop] using h⟩
  | _ + 1, [], _, d, h, _ => ⟨d, by simpa [cleanLoop] using h⟩
  | fuel + 1, c :: rest, _, _, h, ht => by
    simp only [cleanLoop]
    exact cleanLoop_bufferInv fuel _ (cleanStep_inv c rest h ht).1 (cleanStep_inv c rest h ht).2

/-- The result of `path.Clean` on a rooted path is rooted. -/
theorem Clean_rooted (path : Str) (h : path.head? = some slash) :
    (Clean path).head? = some slash := by
  have hne : path ≠ [] := by
    intro he
    rw [he] at h
    simp at h
  have hroot : BufferInv true [slash] 1 :=
    ⟨List.chain'_singleton _, by simp, by simp, by simp, by simp⟩
  have hrootT : NoTrailingSlash true [slash] := by intro h; simp at h
  obtain ⟨d, hd⟩ := cleanLoop_bufferInv path.length path.tail hroot hrootT
  obtain ⟨hlast, -⟩ := hd.root rfl
  unfold Clean
  simp only [hne, if_false, h, decide_True, if_true]
  have hlen : ¬ (cleanLoop true path.length path.tail [slash] 1).length = 0 := by
    intro h0
    rw [List.length_eq_zero.mp h0] at hlast
    simp at hlast
  rw [if_neg hlen, List.head?_reverse]
  exact hlast

theorem Join_rooted (p : Str) (h : p.head? = some slash) :
    (Join [p, bytes "housekeeping"]).head? = some slash := by
  have hne : p ≠ [] := by
    intro he
    rw [he] at h
    simp at h
  simp only [Join, ne_eq, hne, not_false_eq_true, if_true, stringsJoin]
  apply Clean_rooted
  cases p with
  | nil => exact absurd rfl hne
  | cons c t => simpa using h

theorem escape_path_rooted (s : Str) (h : s.head? = some slash) :
    (escape s encodePath).head? = some slash := by
  rw [escape_path_eq]
  cases s with
  | nil => simp at h
  | cons c t =>
    simp only [List.head?_cons, Option.some.injEq] at h
    subst h
    have e : escapeByte slash = [slash] := by decide
    simp [List.flatMap_cons, e]

/-- Without a raw path, the encoded path `(*URL).String()` writes is the
default encoding of the path. -/
theorem EscapedPath_default (u : URL) (hraw : u.RawPath = []) (hstar : u.Path ≠ bytes "*") :
    u.EscapedPath = escape u.Path encodePath := by
  unfold URL.EscapedPath
  simp [hraw, hstar]

theorem Join_ne_star (p : Str) : Join [p, bytes "housekeeping"] ≠ bytes "*" := by
  intro h
  rcases Join_housekeeping p with h1 | ⟨t, h1⟩
  · rw [h] at h1
    exact absurd h1 (by decide)
  · rw [h] at h1
    have : (t ++ bytes "/housekeeping").length = (bytes "*").length := by rw [h1]
    rw [List.length_append] at this
    have h2 : (bytes "/housekeeping").length = 13 := by decide
    have h3 : (bytes "*").length = 1 := by decide
    omega

theorem endpoint_of_parent (env : Env Key E) (g : Globals)
    (hov : env.GetString "housekeeping.url" = []) (hurl : env.GetString "url" ≠ []) (s : Str)
    (hs : joinedEndpoint (env.GetString "url") = some s) :
    (housekeepingPersistentPreRunE env g).globals.housekeepingUrl = s := by
  unfold joinedEndpoint joined at hs
  unfold housekeepingPersistentPreRunE
  cases hp : Parse (env.GetString "url") with
  | error e => simp [hp] at hs
  | ok u =>
    simp only [hp, Option.some.injEq] at hs
    simp only [hov, hurl, hp, ne_eq, not_true_eq_false, not_false_eq_true, if_true, if_false]
    split <;> exact hs

/-- Whenever `url.Parse` rejects the parent URL and no override URL is set,
the hook panics, with the package variables untouched and no library call. -/
theorem panics_of_rejected_parent (env : Env Key E) (g : Globals)
    (hov : env.GetString "housekeeping.url" = []) (hurl : env.GetString "url" ≠ [])
    (e : UrlError) (hp : Parse (env.GetString "url") = .error e) :
    (housekeepingPersistentPreRunE env g).outcome = .panicked ∧
      (housekeepingPersistentPreRunE env g).globals = g ∧
      (housekeepingPersistentPreRunE env g).trace = [] := by
  unfold housekeepingPersistentPreRunE
  simp [hov, hurl, hp]

/-! ## Properties of the hook -/

/-- C1: when the override URL `housekeeping.url` is a non-empty string `s`,
the hook sets `housekeepingUrl` to exactly `s`, byte for byte, whatever the
parent URL `url` is (empty, malformed or well formed), and it does not
panic. -/
theorem override_url_used_verbatim (env : Env Key E) (g : Globals) (s : Str) (hs : s ≠ [])
    (h : env.GetString "housekeeping.url" = s) :
    (housekeepingPersistentPreRunE env g).globals.housekeepingUrl = s ∧
      (housekeepingPersistentPreRunE env g).outcome ≠ .panicked := by
  unfold housekeepingPersistentPreRunE
  simp only [h, hs, ne_eq, not_false_eq_true, if_true]
  split <;> simp

theorem override_url_used_verbatim_witness :
    bytes "https://hk.example.com/v1" ≠ [] ∧
    (housekeepingPersistentPreRunE (sampleEnv (config "https://hk.example.com/v1" ":foo" "") 0)
        earlier).globals.housekeepingUrl = bytes "https://hk.example.com/v1" ∧
      (housekeepingPersistentPreRunE (sampleEnv (config "https://hk.example.com/v1" ":foo" "") 0)
        earlier).outcome ≠ .panicked :=
  ⟨by decide, override_url_used_verbatim _ earlier _ (by decide) (by decide)⟩

/-- C2: with the override URL empty, the parent URL
"https://example.com/api" resolves to "https://example.com/api/housekeeping";
and for every parent URL that parses to a scheme, a host and a path `p` (no
opaque part), the resolved endpoint is the scheme of the parent, "://", its
user information and its host, then a path, then its query and its fragment,
where the path is written encoded, holds no `?` and no `#`, decodes to
`path.Join(p, "housekeeping")`, and follows a slash when its encoding does not
start with one; when `p` starts with a slash and the parent has no raw path,
the path written is the default encoding of `path.Join(p, "housekeeping")`. -/
theorem parent_url_joined (env : Env Key E) (g : Globals)
    (hov : env.GetString "housekeeping.url" = []) :
    (env.GetString "url" = bytes "https://example.com/api" →
      (housekeepingPersistentPreRunE env g).globals.housekeepingUrl =
        bytes "https://example.com/api/housekeeping") ∧
    (∀ u, env.GetString "url" ≠ [] → Parse (env.GetString "url") = .ok u →
      u.Scheme ≠ [] → u.Host ≠ [] → u.Opaque = [] → (∀ b ∈ u.Path, b < 256) →
      (∃ ep : Str,
        unescape ep encodePath = .ok (Join [u.Path, bytes "housekeeping"]) ∧
        '?'.toNat ∉ ep ∧ '#'.toNat ∉ ep ∧
        (housekeepingPersistentPreRunE env g).globals.housekeepingUrl =
          u.Scheme ++ bytes "://" ++ u.userinfoPart ++ escape u.Host encodeHost ++
            (if ep.head? ≠ some slash then bytes "/" else []) ++ ep ++
            u.queryPart ++ u.fragmentPart) ∧
      (u.RawPath = [] → u.Path.head? = some slash →
        (housekeepingPersistentPreRunE env g).globals.housekeepingUrl =
          u.Scheme ++ bytes "://" ++ u.userinfoPart ++ escape u.Host encodeHost ++
            escape (Join [u.Path, bytes "housekeeping"]) encodePath ++
            u.queryPart ++ u.fragmentPart)) := by
  constructor
  · intro hurl
    refine endpoint_of_parent env g hov ?_ _ ?_
    · rw [hurl]; decide
    · rw [hurl]; decide
  · intro u hurl hp hs hh ho hb
    have hend : (housekeepingPersistentPreRunE env g).globals.housekeepingUrl =
        (joined u).String := by
      refine endpoint_of_parent env g hov hurl _ ?_
      unfold joinedEndpoint
      rw [hp]
    have hne : (joined u).EscapedPath ≠ [] := EscapedPath_ne_nil _ (Join_ne_nil u.Path)
    have hstr := String_hierarchical (joined u) hs hh ho
    simp only [hne, ne_eq, not_false_eq_true, true_and] at hstr
    refine ⟨⟨(joined u).EscapedPath, EscapedPath_decode (joined u) (Join_bytes u.Path hb),
      (EscapedPath_no_delim (joined u)).1, (EscapedPath_no_delim (joined u)).2, ?_⟩, ?_⟩
    · rw [hend, hstr]
      rfl
    · intro hraw hroot
      have hdef : (joined u).EscapedPath = escape (Join [u.Path, bytes "housekeeping"]) encodePath :=
        EscapedPath_default (joined u) hraw (Join_ne_star u.Path)
      have hhead : (joined u).EscapedPath.head? = some slash := by
        rw [hdef]
        exact escape_path_rooted _ (Join_rooted u.Path hroot)
      rw [hend, hstr, hhead, hdef]
      simp only [ne_eq, not_true_eq_false, if_false, List.append_nil]
      rfl

theorem parent_url_joined_witness :
    (housekeepingPersistentPreRunE
      (sampleEnv (config "" "https://example.com/api" "") 0) earlier).globals.housekeepingUrl
        = bytes "https://example.com/api/housekeeping" ∧
    (∃ ep : Str,
      unescape ep encodePath = .ok (bytes "/v1/a b/housekeeping") ∧
      '?'.toNat ∉ ep ∧ '#'.toNat ∉ ep ∧
      (housekeepingPersistentPreRunE
        (sampleEnv (config "" "http://astarte@api.example.com:4000/v1//a%20b/?x=1#top" "") 0)
          earlier).globals.housekeepingUrl =
        bytes "http" ++ bytes "://" ++ bytes "astarte@" ++ bytes "api.example.com:4000" ++
          (if ep.head? ≠ some slash then bytes "/" else []) ++ ep ++
          bytes "?x=1" ++ bytes "#top") ∧
    (housekeepingPersistentPreRunE
      (sampleEnv (config "" "http://astarte@api.example.com:4000/v1//a%20b/?x=1#top" "") 0)
        earlier).globals.housekeepingUrl =
      bytes "http://astarte@api.example.com:4000/v1/a%20b/housekeeping?x=1#top" :=
  ⟨(parent_url_joined (sampleEnv (config "" "https://example.com/api" "") 0) earlier
      (by decide)).1 (by decide),
    ((parent_url_joined
      (sampleEnv (config "" "http://astarte@api.example.com:4000/v1//a%20b/?x=1#top" "") 0)
      earlier (by decide)).2
      { URL.zero with
        Scheme := bytes "http"
        User := some { username := bytes "astarte", password := [], passwordSet := false }
        Host := bytes "api.example.com:4000"
        Path := bytes "/v1//a b/"
        RawQuery := bytes "x=1"
        Fragment := bytes "top" }
      (by decide) rfl (by decide) (by decide) (by decide) (by decide)).1,
    ((parent_url_joined
      (sampleEnv (config "" "http://astarte@api.example.com:4000/v1//a%20b/?x=1#top" "") 0)
      earlier (by decide)).2
      { URL.zero with
        Scheme := bytes "http"
        User := some { username := bytes "astarte", password := [], passwordSet := false }
        Host := bytes "api.example.com:4000"
        Path := bytes "/v1//a b/"
        RawQuery := bytes "x=1"
        Fragment := bytes "top" }
      (by decide) rfl (by decide) (by decide) (by decide) (by decide)).2 rfl rfl⟩

/-- C3: when both the override URL and the parent URL are empty the hook
returns the error "Either astarte-url or housekeeping-url have to be
specified", whatever the key path is, without any library call (no file is
read, no token is generated) and with the package variables untouched; and
this error is returned only when both settings are empty. -/
theorem no_url_error (env : Env Key E) (g : Globals) :
    ((housekeepingPersistentPreRunE env g).outcome =
        .returned (some (.errorsNew "Either astarte-url or housekeeping-url have to be specified"))
      ↔ env.GetString "housekeeping.url" = [] ∧ env.GetString "url" = []) ∧
    (env.GetString "housekeeping.url" = [] ∧ env.GetString "url" = [] →
      (housekeepingPersistentPreRunE env g).trace = [] ∧
      (housekeepingPersistentPreRunE env g).globals = g) := by
  unfold housekeepingPersistentPreRunE generateHousekeepingJWT
  by_cases h1 : env.GetString "housekeeping.url" = []
  · by_cases h2 : env.GetString "url" = []
    · simp [h1, h2]
    · simp only [h1, h2, ne_eq, not_true_eq_false, not_false_eq_true, if_true, if_false]
      cases Parse (env.GetString "url") with
      | error e => simp
      | ok u =>
        simp only [and_false, iff_false, false_implies, and_true]
        split
        · simp
        · repeat' split
          all_goals simp
  · simp only [h1, ne_eq, not_false_eq_true, if_true, false_and, iff_false, false_implies,
      and_true]
    split
    · simp
    · repeat' split
      all_goals simp

theorem no_url_error_witness :
    (housekeepingPersistentPreRunE (sampleEnv (config "" "" "/etc/astarte/housekeeping.pem") 0)
        earlier).outcome =
      .returned (some (.errorsNew "Either astarte-url or housekeeping-url have to be specified")) ∧
    (housekeepingPersistentPreRunE (sampleEnv (config "" "" "/etc/astarte/housekeeping.pem") 0)
        earlier).trace = [] ∧
    (housekeepingPersistentPreRunE (sampleEnv (config "" "" "/etc/astarte/housekeeping.pem") 0)
        earlier).globals = earlier :=
  ⟨(no_url_error _ earlier).1.2 ⟨by decide, by decide⟩,
    (no_url_error _ earlier).2 ⟨by decide, by decide⟩⟩

/-- C4: when the key path `housekeeping.key` is empty the hook makes no
library call at all (the key file is not read), leaves `housekeepingJwt` as
it was and does not succeed; and once the endpoint is resolved (the override
URL is set, or the parent URL is set and parses) what it returns is the error
"housekeeping-key is required". -/
theorem key_required (env : Env Key E) (g : Globals)
    (hkey : env.GetString "housekeeping.key" = []) :
    (housekeepingPersistentPreRunE env g).trace = [] ∧
    (housekeepingPersistentPreRunE env g).globals.housekeepingJwt = g.housekeepingJwt ∧
    (housekeepingPersistentPreRunE env g).outcome ≠ .returned none ∧
    ((env.GetString "housekeeping.url" ≠ [] ∨
        (env.GetString "url" ≠ [] ∧ ∃ u, Parse (env.GetString "url") = .ok u)) →
      (housekeepingPersistentPreRunE env g).outcome =
        .returned (some (.errorsNew "housekeeping-key is required"))) := by
  unfold housekeepingPersistentPreRunE
  by_cases h1 : env.GetString "housekeeping.url" = []
  · by_cases h2 : env.GetString "url" = []
    · simp [h1, h2, hkey]
    · cases hp : Parse (env.GetString "url") with
      | error e => simp [h1, h2, hkey, hp]
      | ok u => simp [h1, h2, hkey, hp]
  · simp [h1, hkey]

theorem key_required_witness :
    (housekeepingPersistentPreRunE (sampleEnv (config "" "https://example.com/api" "") 0)
        earlier).trace = [] ∧
    (housekeepingPersistentPreRunE (sampleEnv (config "" "https://example.com/api" "") 0)
        earlier).globals.housekeepingJwt = earlier.housekeepingJwt ∧
    (housekeepingPersistentPreRunE (sampleEnv (config "" "https://example.com/api" "") 0)
        earlier).outcome ≠ .returned none ∧
    (housekeepingPersistentPreRunE (sampleEnv (config "" "https://example.com/api" "") 0)
        earlier).outcome = .returned (some (.errorsNew "housekeeping-key is required")) :=
  have h := key_required (sampleEnv (config "" "https://example.com/api" "") 0) earlier
    (by decide)
  ⟨h.1, h.2.1, h.2.2.1, h.2.2.2 (Or.inr ⟨by decide, _, rfl⟩)⟩

/-- C5: for every `int64` time `T` returned by the clock, every token that
`generateHousekeepingJWT` signs is an RS256 token whose claim set has exactly
the three entries `a_ha = ["^.*$::^.*$"]`, `iat = T` and `exp = T + 300`
(`int64` addition); such a token is signed whenever the key file is read and
parsed; `exp - iat` is 300, and `exp` is the integer `T + 300` whenever that
is an `int64`. -/
theorem claims_signed (env : Env Key E) (privateKey : Str) (T : Int) (hT : env.Now = T)
    (hlo : -2 ^ 63 ≤ T) (hhi : T < 2 ^ 63) :
    (∀ token key, Event.signedString token key ∈ (generateHousekeepingJWT env privateKey).2 →
      token.Method = "RS256" ∧
      token.Claims = [("a_ha", .strings [bytes "^.*$::^.*$"]), ("iat", .int64 T),
        ("exp", .int64 (wrapInt64 (T + 300)))]) ∧
    (∀ keyPEM key, env.ReadFile privateKey = .ok keyPEM →
      env.ParseRSAPrivateKeyFromPEM keyPEM = .ok key →
      Event.signedString (NewWithClaims SigningMethodRS256 (claimsAt T)) key ∈
        (generateHousekeepingJWT env privateKey).2) ∧
    wrapInt64 (wrapInt64 (T + 300) - T) = 300 ∧
    (T + 300 < 2 ^ 63 → wrapInt64 (T + 300) = T + 300) := by
  refine ⟨?_, ?_, ?_, ?_⟩
  · intro token key hmem
    unfold generateHousekeepingJWT at hmem
    cases hr : env.ReadFile privateKey with
    | error e => simp [hr] at hmem
    | ok keyPEM =>
      cases hp : env.ParseRSAPrivateKeyFromPEM keyPEM with
      | error e => simp [hr, hp] at hmem
      | ok k =>
        simp only [hr, hp, hT] at hmem
        have hmem2 : Event.signedString token key ∈
            ([.readFile privateKey, .parseRSAPrivateKeyFromPEM keyPEM, .timeNow,
              .signedString (NewWithClaims SigningMethodRS256
                [("a_ha", .strings [bytes "^.*$::^.*$"]), ("iat", .int64 T),
                  ("exp", .int64 (wrapInt64 (T + 300)))]) k] : List (Event Key)) := by
          split at hmem <;> exact hmem
        simp only [List.mem_cons, List.mem_singleton, reduceCtorEq, false_or,
          Event.signedString.injEq, List.not_mem_nil, or_false] at hmem2
        obtain ⟨ht, -⟩ := hmem2
        subst ht
        exact ⟨rfl, rfl⟩
  · intro keyPEM key hr hp
    unfold generateHousekeepingJWT
    simp only [hr, hp, hT, claimsAt]
    split <;> simp
  · unfold wrapInt64
    omega
  · intro h
    unfold wrapInt64
    omega

theorem claims_signed_witness :
    (∀ token key, Event.signedString token key ∈
        (generateHousekeepingJWT (sampleEnv (config "" "" "") 1572872400)
          (bytes "/etc/astarte/housekeeping.pem")).2 →
      token.Method = "RS256" ∧
      token.Claims = [("a_ha", .strings [bytes "^.*$::^.*$"]), ("iat", .int64 1572872400),
        ("exp", .int64 (wrapInt64 (1572872400 + 300)))]) ∧
    Event.signedString (NewWithClaims SigningMethodRS256 (claimsAt 1572872400)) () ∈
      (generateHousekeepingJWT (sampleEnv (config "" "" "") 1572872400)
        (bytes "/etc/astarte/housekeeping.pem")).2 ∧
    wrapInt64 (1572872400 + 300) = 1572872700 :=
  have h := claims_signed (sampleEnv (config "" "" "") 1572872400)
    (bytes "/etc/astarte/housekeeping.pem") 1572872400 rfl (by decide) (by decide)
  ⟨h.1, h.2.1 (bytes "pem") () rfl rfl, h.2.2.2 (by decide)⟩

/-- C6: with the override URL empty and a parent URL that `url.Parse`
rejects, the hook does not return a result: `url.Parse` returns a nil URL,
its error is discarded, and the assignment to `url.Path` panics. This is the
run for the parent URLs ":foo", "http://a b" and "127.0.0.1:4001". -/
theorem rejected_parent_url_panics :
    Parse (bytes ":foo") = .error .missingProtocolScheme ∧
    (housekeepingPersistentPreRunE
      (sampleEnv (config "" ":foo" "/etc/astarte/housekeeping.pem") 0) earlier).outcome
        = .panicked ∧
    Parse (bytes "http://a b") = .error (.invalidHostError (bytes " ")) ∧
    (housekeepingPersistentPreRunE
      (sampleEnv (config "" "http://a b" "/etc/astarte/housekeeping.pem") 0) earlier).outcome
        = .panicked ∧
    Parse (bytes "127.0.0.1:4001") = .error .firstPathSegmentColon ∧
    (housekeepingPersistentPreRunE
      (sampleEnv (config "" "127.0.0.1:4001" "/etc/astarte/housekeeping.pem") 0) earlier).outcome
        = .panicked :=
  ⟨rfl, by decide, rfl, by decide, rfl, by decide⟩

/-- C7, as stated, fails: with the override URL set and the key path empty
the hook returns an error after it has overwritten `housekeepingUrl`; and
with a key file that cannot be read it returns the file system's error after
it has overwritten `housekeepingJwt` with the empty string. -/
theorem error_after_write :
    (housekeepingPersistentPreRunE (sampleEnv (config "https://hk.example.com/v1" "" "") 0)
        earlier).outcome = .returned (some (.errorsNew "housekeeping-key is required")) ∧
    (housekeepingPersistentPreRunE (sampleEnv (config "https://hk.example.com/v1" "" "") 0)
        earlier).globals.housekeepingUrl = bytes "https://hk.example.com/v1" ∧
    (housekeepingPersistentPreRunE (sampleEnv (config "https://hk.example.com/v1" "" "") 0)
        earlier).globals.housekeepingUrl ≠ earlier.housekeepingUrl ∧
    (housekeepingPersistentPreRunE
      (sampleEnv (config "https://hk.example.com/v1" "" "/missing.pem") 0) earlier).outcome
        = .returned (some (.external "no such file or directory")) ∧
    (housekeepingPersistentPreRunE
      (sampleEnv (config "https://hk.example.com/v1" "" "/missing.pem") 0)
        earlier).globals.housekeepingJwt = [] ∧
    earlier.housekeepingJwt ≠ [] := by
  decide

/-- C7, amended: when the hook returns an error, either it is the error that
no URL is configured and both package variables are unchanged, or
`housekeepingUrl` already holds the resolved endpoint and `housekeepingJwt`
is unchanged (the key path is empty) or has been set to the empty string
(`generateHousekeepingJWT` failed). -/
theorem error_state (env : Env Key E) (g : Globals) (e : GoError E)
    (herr : (housekeepingPersistentPreRunE env g).outcome = .returned (some e)) :
    (e = .errorsNew "Either astarte-url or housekeeping-url have to be specified" ∧
      (housekeepingPersistentPreRunE env g).globals = g) ∨
    (ResolvesTo env (housekeepingPersistentPreRunE env g).globals.housekeepingUrl ∧
      ((e = .errorsNew "housekeeping-key is required" ∧
          env.GetString "housekeeping.key" = [] ∧
          (housekeepingPersistentPreRunE env g).globals.housekeepingJwt = g.housekeepingJwt) ∨
        (∃ x, e = .external x ∧ env.GetString "housekeeping.key" ≠ [] ∧
          (housekeepingPersistentPreRunE env g).globals.housekeepingJwt = []))) := by
  have hgen : ∀ pk x, (generateHousekeepingJWT env pk).1.2 = some x →
      (∃ y, x = .external y) ∧ (generateHousekeepingJWT env pk).1.1 = [] := by
    intro pk x hx
    unfold generateHousekeepingJWT at hx ⊢
    cases hr : env.ReadFile pk with
    | error err => simp only [hr] at hx ⊢; simp at hx; exact ⟨⟨err, hx.symm⟩, trivial⟩
    | ok keyPEM =>
      cases hp : env.ParseRSAPrivateKeyFromPEM keyPEM with
      | error err => simp only [hr, hp] at hx ⊢; simp at hx; exact ⟨⟨err, hx.symm⟩, trivial⟩
      | ok key =>
        simp only [hr, hp] at hx ⊢
        split at hx
        · rename_i err hs
          simp at hx
          simp only [hs]
          exact ⟨⟨err, hx.symm⟩, trivial⟩
        · simp at hx
  unfold ResolvesTo
  unfold housekeepingPersistentPreRunE at herr ⊢
  by_cases h1 : env.GetString "housekeeping.url" = []
  · by_cases h2 : env.GetString "url" = []
    · simp [h1, h2] at herr ⊢
      exact herr.symm
    · cases hp : Parse (env.GetString "url") with
      | error e => simp [h1, h2, hp] at herr
      | ok u =>
        by_cases h3 : env.GetString "housekeeping.key" = []
        · simp [h1, h2, hp, h3, joined] at herr ⊢
          exact Or.inr herr.symm
        · simp only [h1, h2, hp, h3, ne_eq, not_true_eq_false, not_false_eq_true, if_true,
            if_false, Outcome.returned.injEq] at herr ⊢
          obtain ⟨⟨y, hy⟩, hj⟩ := hgen _ _ herr
          refine Or.inr ⟨Or.inr ⟨trivial, trivial, u, rfl, rfl⟩, Or.inr ⟨y, hy, trivial, hj⟩⟩
  · by_cases h3 : env.GetString "housekeeping.key" = []
    · simp [h1, h3] at herr ⊢
      exact Or.inr herr.symm
    · simp only [h1, h3, ne_eq, not_false_eq_true, if_true, if_false,
        Outcome.returned.injEq] at herr ⊢
      obtain ⟨⟨y, hy⟩, hj⟩ := hgen _ _ herr
      refine Or.inr ⟨Or.inl ⟨trivial, trivial⟩, Or.inr ⟨y, hy, trivial, hj⟩⟩

theorem error_state_witness :
    (GoError.external "no such file or directory" : GoError String) =
        .errorsNew "Either astarte-url or housekeeping-url have to be specified" ∧
      (housekeepingPersistentPreRunE
        (sampleEnv (config "https://hk.example.com/v1" "" "/missing.pem") 0) earlier).globals
          = earlier ∨
    (ResolvesTo (sampleEnv (config "https://hk.example.com/v1" "" "/missing.pem") 0)
        (housekeepingPersistentPreRunE
          (sampleEnv (config "https://hk.example.com/v1" "" "/missing.pem") 0)
          earlier).globals.housekeepingUrl ∧
      (((GoError.external "no such file or directory" : GoError String) =
            .errorsNew "housekeeping-key is required" ∧
          (sampleEnv (config "https://hk.example.com/v1" "" "/missing.pem") 0).GetString
            "housekeeping.key" = [] ∧
          (housekeepingPersistentPreRunE
            (sampleEnv (config "https://hk.example.com/v1" "" "/missing.pem") 0)
            earlier).globals.housekeepingJwt = earlier.housekeepingJwt) ∨
        (∃ x, (GoError.external "no such file or directory" : GoError String) = .external x ∧
          (sampleEnv (config "https://hk.example.com/v1" "" "/missing.pem") 0).GetString
            "housekeeping.key" ≠ [] ∧
          (housekeepingPersistentPreRunE
            (sampleEnv (config "https://hk.example.com/v1" "" "/missing.pem") 0)
            earlier).globals.housekeepingJwt = []))) :=
  error_state (sampleEnv (config "https://hk.example.com/v1" "" "/missing.pem") 0) earlier
    (.external "no such file or directory") (by decide)

/-- C8: when the hook returns without error, `housekeepingUrl` and
`housekeepingJwt` are both non-empty strings. -/
theorem success_populates (env : Env Key E) (g : Globals)
    (h : (housekeepingPersistentPreRunE env g).outcome = .returned none) :
    (housekeepingPersistentPreRunE env g).globals.housekeepingUrl ≠ [] ∧
      (housekeepingPersistentPreRunE env g).globals.housekeepingJwt ≠ [] := by
  unfold housekeepingPersistentPreRunE at h ⊢
  by_cases h1 : env.GetString "housekeeping.url" = []
  · by_cases h2 : env.GetString "url" = []
    · simp [h1, h2] at h
    · cases hp : Parse (env.GetString "url") with
      | error e => simp [h1, h2, hp] at h
      | ok u =>
        by_cases h3 : env.GetString "housekeeping.key" = []
        · simp [h1, h2, hp, h3] at h
        · simp only [h1, h2, hp, h3, ne_eq, not_true_eq_false, not_false_eq_true, if_true,
            if_false, Outcome.returned.injEq] at h ⊢
          exact ⟨String_ne_nil _ (Join_ne_nil u.Path), generateHousekeepingJWT_ne_nil env _ h⟩
  · by_cases h3 : env.GetString "housekeeping.key" = []
    · simp [h1, h3] at h
    · simp only [h1, h3, ne_eq, not_false_eq_true, if_true, if_false,
        Outcome.returned.injEq] at h ⊢
      exact ⟨trivial, generateHousekeepingJWT_ne_nil env _ h⟩

theorem success_populates_witness :
    (housekeepingPersistentPreRunE
      (sampleEnv (config "" "https://example.com/api" "/etc/astarte/housekeeping.pem") 0)
        earlier).globals.housekeepingUrl ≠ [] ∧
    (housekeepingPersistentPreRunE
      (sampleEnv (config "" "https://example.com/api" "/etc/astarte/housekeeping.pem") 0)
        earlier).globals.housekeepingJwt ≠ [] :=
  success_populates _ earlier (by decide)

/-- C9: `generateHousekeepingJWT` returns the empty string with the file
system's error, after the read alone, when the key file cannot be read; the
empty string with the parser's error, after the read and the parse alone,
when the bytes are not an RSA key in PEM; the empty string with the signer's
error when signing fails; and the signed token with a nil error when all
three succeed, which is the only case with a nil error. -/
theorem generate_jwt_results (env : Env Key E) (privateKey : Str) :
    (∀ err, env.ReadFile privateKey = .error err →
      generateHousekeepingJWT env privateKey =
        (([], some (.external err)), [.readFile privateKey])) ∧
    (∀ keyPEM err, env.ReadFile privateKey = .ok keyPEM →
      env.ParseRSAPrivateKeyFromPEM keyPEM = .error err →
      generateHousekeepingJWT env privateKey =
        (([], some (.external err)),
          [.readFile privateKey, .parseRSAPrivateKeyFromPEM keyPEM])) ∧
    (∀ keyPEM key err, env.ReadFile privateKey = .ok keyPEM →
      env.ParseRSAPrivateKeyFromPEM keyPEM = .ok key →
      SignedString env (NewWithClaims SigningMethodRS256 (claimsAt env.Now)) key = .error err →
      (generateHousekeepingJWT env privateKey).1 = ([], some (.external err))) ∧
    (∀ keyPEM key tokenString, env.ReadFile privateKey = .ok keyPEM →
      env.ParseRSAPrivateKeyFromPEM keyPEM = .ok key →
      SignedString env (NewWithClaims SigningMethodRS256 (claimsAt env.Now)) key
        = .ok tokenString →
      (generateHousekeepingJWT env privateKey).1 = (tokenString, none)) ∧
    ((generateHousekeepingJWT env privateKey).1.2 = none ↔
      ∃ keyPEM key tokenString, env.ReadFile privateKey = .ok keyPEM ∧
        env.ParseRSAPrivateKeyFromPEM keyPEM = .ok key ∧
        SignedString env (NewWithClaims SigningMethodRS256 (claimsAt env.Now)) key
          = .ok tokenString) := by
  refine ⟨?_, ?_, ?_, ?_, ?_⟩
  · intro err h
    simp [generateHousekeepingJWT, h]
  · intro keyPEM err h1 h2
    simp [generateHousekeepingJWT, h1, h2]
  · intro keyPEM key err h1 h2 h3
    unfold claimsAt at h3
    simp [generateHousekeepingJWT, h1, h2, h3]
  · intro keyPEM key tokenString h1 h2 h3
    unfold claimsAt at h3
    simp [generateHousekeepingJWT, h1, h2, h3]
  · unfold generateHousekeepingJWT claimsAt
    cases hr : env.ReadFile privateKey with
    | error e => simp
    | ok keyPEM =>
      cases hp : env.ParseRSAPrivateKeyFromPEM keyPEM with
      | error e => simp [hp]
      | ok key =>
        cases hs : SignedString env (NewWithClaims SigningMethodRS256
            [("a_ha", .strings [bytes "^.*$::^.*$"]), ("iat", .int64 env.Now),
              ("exp", .int64 (wrapInt64 (env.Now + 300)))]) key with
        | error e => simp [hp, hs]
        | ok t => simp [hp, hs]

theorem generate_jwt_results_witness :
    generateHousekeepingJWT (sampleEnv (config "" "" "") 0) (bytes "/missing.pem") =
        (([], some (.external "no such file or directory")),
          [.readFile (bytes "/missing.pem")]) ∧
    generateHousekeepingJWT (sampleEnv (config "" "" "") 0) (bytes "/tmp/notes.txt") =
        (([], some (.external "key must be PEM encoded")),
          [.readFile (bytes "/tmp/notes.txt"),
            .parseRSAPrivateKeyFromPEM (bytes "not a key")]) ∧
    (generateHousekeepingJWT (sampleEnv (config "" "" "") 0)
        (bytes "/etc/astarte/housekeeping.pem")).1 =
      (bytes "eyJhbGciOiJSUzI1NiJ9.e30.c2ln", none) :=
  ⟨(generate_jwt_results _ _).1 _ rfl,
    (generate_jwt_results _ _).2.1 _ _ rfl rfl,
    (generate_jwt_results _ _).2.2.2.1 _ () _ rfl rfl rfl⟩

/-- C10: with the override URL empty, the parent URL "localhost:4001"
parses, to the scheme "localhost" and the opaque part "4001"; the hook joins
"housekeeping" to its path, but the rendering of a URL with an opaque part
leaves the path out: the resolved endpoint is "localhost:4001" again, not
"localhost:4001/housekeeping", and its path is empty. The parent URL "http://"
parses too (no opaque part), and resolves to "http://housekeeping", where
"housekeeping" is the host and the path is empty. -/
theorem rootless_parent_url_keeps_no_path :
    Parse (bytes "localhost:4001") =
      .ok { URL.zero with Scheme := bytes "localhost", Opaque := bytes "4001" } ∧
    (housekeepingPersistentPreRunE (sampleEnv (config "" "localhost:4001" "") 0)
      earlier).globals.housekeepingUrl = bytes "localhost:4001" ∧
    pathOf (housekeepingPersistentPreRunE (sampleEnv (config "" "localhost:4001" "") 0)
      earlier).globals.housekeepingUrl = some [] ∧
    ¬ bytes "housekeeping" <:+
      (housekeepingPersistentPreRunE (sampleEnv (config "" "localhost:4001" "") 0)
        earlier).globals.housekeepingUrl ∧
    Parse (bytes "http://") = .ok { URL.zero with Scheme := bytes "http" } ∧
    (housekeepingPersistentPreRunE (sampleEnv (config "" "http://" "") 0)
      earlier).globals.housekeepingUrl = bytes "http://housekeeping" ∧
    Parse (bytes "http://housekeeping") =
      .ok { URL.zero with Scheme := bytes "http", Host := bytes "housekeeping" } ∧
    pathOf (housekeepingPersistentPreRunE (sampleEnv (config "" "http://" "") 0)
      earlier).globals.housekeepingUrl = some [] :=
  ⟨rfl, by decide, by decide, by decide, rfl, by decide, rfl, by decide⟩

end Housekeeping
